import Mathlib

/-!
A verification development for the `mlhousing` preprocessing pipeline
(`src/mlhousing/preprocess.py`).

The pipeline is a linear sequence of dataframe operations: load a CSV,
bin the income column, perform a seeded stratified train/test split,
impute numeric columns by train-fitted medians, derive three ratio
features, one-hot encode the categorical column, and write four CSVs.

Modelling conventions:
- floating point cells are modelled as rationals; a missing value (NaN)
  and the two infinities are explicit constructors of the cell type;
- dataframes are a column-name list, a row-label index, and a list of
  rows (lists of cells), mirroring pandas frames;
- fallible pandas and sklearn operations return Option, with none for a
  raised exception;
- the numpy random generator driving the splitter is abstracted as a
  record of permutation and allocation draws, with a proposition class
  stating the contract the real generator satisfies; the seeded
  generator used by the code (random_state 42) is a fixed deterministic
  instance of it;
- the process state (working directory, written files) is threaded
  explicitly through the writer; log-file output is outside the
  functional contract and is not modelled.
-/

namespace MLHousing

/-- A dataframe cell: a finite number, positive or negative infinity,
a missing value (NaN), or a string (used by the categorical column). -/
inductive Val where
  | num (q : ℚ)
  | pinf
  | ninf
  | na
  | str (s : String)
  deriving DecidableEq, Repr

/-- A pandas dataframe: column names, row-label index, and rows of
cells.  Well-formedness (rectangular shape) is a separate predicate. -/
structure DF where
  cols : List String
  index : List Int
  rows : List (List Val)
  deriving DecidableEq, Repr

/-- Rectangular shape: one index label per row, one cell per column. -/
def DF.wf (df : DF) : Prop :=
  df.index.length = df.rows.length ∧ ∀ r ∈ df.rows, r.length = df.cols.length

instance (df : DF) : Decidable df.wf := by
  unfold DF.wf
  exact inferInstance

/-- Number of rows of the frame. -/
def DF.nRows (df : DF) : Nat := df.rows.length

/-- Position of a label in a label list, first match. -/
def colIdx (c : String) : List String → Option Nat
  | [] => none
  | d :: cols => if d = c then some 0 else (colIdx c cols).map (· + 1)

/-- Position of a column label, first match (column labels are unique
in every frame the pipeline builds). -/
def DF.colPos (df : DF) (c : String) : Option Nat :=
  colIdx c df.cols

/-- Column selection, df[c]: the list of cells of the named column, or
none (KeyError) when the label is absent. -/
def DF.getCol (df : DF) (c : String) : Option (List Val) :=
  (df.colPos c).map (fun j => df.rows.map (fun r => r.getD j Val.na))

/-- Positions of the columns that survive dropping label c. -/
def dropColPositions (cols : List String) (c : String) : List Nat :=
  (List.range cols.length).filter (fun j => ¬ cols.getD j "" == c)

/-- Restrict a row to the given cell positions. -/
def selectPositions (ps : List Nat) (r : List Val) : List Val :=
  ps.map (fun j => r.getD j Val.na)

/-- df.drop(c, axis=1): remove every column labelled c; none (KeyError)
when the label is absent. -/
def DF.dropCol (df : DF) (c : String) : Option DF :=
  if c ∈ df.cols then
    some { cols := (dropColPositions df.cols c).map (fun j => df.cols.getD j "")
           index := df.index
           rows := df.rows.map (selectPositions (dropColPositions df.cols c)) }
  else none

/-- Column assignment df[c] = vals: overwrite the column in place when
the label exists, else append a new rightmost column. -/
def DF.addCol (df : DF) (c : String) (vals : List Val) : DF :=
  match df.colPos c with
  | some j => { df with rows := df.rows.zipWith (fun r v => r.set j v) vals }
  | none => { cols := df.cols ++ [c]
              index := df.index
              rows := df.rows.zipWith (fun r v => r ++ [v]) vals }

/-- Binning of one income cell, following pd.cut with the fixed edges
0, 1.5, 3, 4.5, 6, +inf, right-closed intervals, labels 1..5.  The
left edge 0 is excluded (include_lowest is not set), so a
non-positive income falls in no interval and receives NaN; +inf lies
in the last right-closed interval.  A string cell raises (pd.cut on a
non-numeric column). -/
def cutCell : Val → Option Val
  | Val.num q =>
      some (if q ≤ 0 then Val.na
            else if q ≤ 1.5 then Val.num 1
            else if q ≤ 3 then Val.num 2
            else if q ≤ 4.5 then Val.num 3
            else if q ≤ 6 then Val.num 4
            else Val.num 5)
  | Val.pinf => some (Val.num 5)
  | Val.ninf => some Val.na
  | Val.na => some Val.na
  | Val.str _ => none

/-- The binning step: housing with the derived income_cat column
appended, computed cellwise from median_income. -/
def binning (housing : DF) : Option DF := do
  let inc ← housing.getCol "median_income"
  let labels ← inc.mapM cutCell
  pure (housing.addCol "income_cat" labels)

/-- Python str.split on the dot separator, on the character list of the
filename: every maximal dot-free run, empty runs kept. -/
def splitDot : List Char → List (List Char)
  | [] => [[]]
  | c :: cs =>
      if c = '.' then [] :: splitDot cs
      else
        match splitDot cs with
        | [] => [[c]]
        | h :: t => (c :: h) :: t

/-- INPUT_FILE.split with a dot, element 0: the part of the filename
before the first dot. -/
def fileBase (s : String) : String :=
  String.mk ((splitDot s.data).headD [])

/-- The four output filenames derived in save_processdata from the
input filename. -/
def outputFilenames (inputFile : String) : List String :=
  let b := fileBase inputFile
  [b ++ "_train.csv", b ++ "_label.csv", b ++ "_testdata.csv", b ++ "_testlabel.csv"]

/-- Filename derivation as the spec words it: strip the extension, that
is everything from the last dot on (the whole name when it has no
dot), then append the four suffixes.  Written from the spec for
comparison with outputFilenames. -/
def specStripExt (s : String) : String :=
  match (splitDot s.data).reverse with
  | [] => s
  | [_] => s
  | _ :: rest => String.mk (String.intercalate "." (rest.reverse.map String.mk)).data

/-- The four output filenames as the spec describes them. -/
def specOutputFilenames (inputFile : String) : List String :=
  let b := specStripExt inputFile
  [b ++ "_train.csv", b ++ "_label.csv", b ++ "_testdata.csv", b ++ "_testlabel.csv"]

/-- Read one cell of a numeric column as the imputer sees it: a value,
a missing entry, or a conversion failure.  Strings fail the conversion
to a float array; non-finite raw values are outside the modelled
fragment of the pipeline (the raw housing columns are finite or
missing). -/
def getNumCell : Val → Option (Option ℚ)
  | Val.num q => some (some q)
  | Val.na => some none
  | Val.pinf => none
  | Val.ninf => none
  | Val.str _ => none

/-- Insert into a list kept sorted by le. -/
def insertLe {α : Type} (le : α → α → Bool) (a : α) : List α → List α
  | [] => [a]
  | b :: l => if le a b then a :: b :: l else b :: insertLe le a l

/-- Sorting by le (insertion sort; the sorted result is what matters,
not the library's internal sorting algorithm). -/
def sortLe {α : Type} (le : α → α → Bool) : List α → List α
  | [] => []
  | a :: l => insertLe le a (sortLe le l)

/-- Median of a list of rationals as numpy computes it: middle element
of the sorted list for odd length, mean of the two middle elements for
even length, none for the empty list (an all-missing column has no
median). -/
def medianQ (l : List ℚ) : Option ℚ :=
  let s := sortLe (fun a b => a ≤ b) l
  let n := s.length
  if n = 0 then none
  else if n % 2 = 1 then some (s.getD (n / 2) 0)
  else some ((s.getD (n / 2 - 1) 0 + s.getD (n / 2) 0) / 2)

/-- The fitted state of SimpleImputer(strategy="median"): the feature
names seen at fit time and the per-column median statistics, none for
a column with no observed value. -/
structure Imputer where
  featNames : List String
  stats : List (Option ℚ)
  deriving DecidableEq, Repr

/-- imputer.fit(df): compute each column of df as numeric data and take
its median over the observed entries.  Fails when some cell is not
numeric or missing. -/
def fitImputer (df : DF) : Option Imputer := do
  let colsData ← (List.range df.cols.length).mapM
    (fun j => (df.rows.map (fun r => r.getD j Val.na)).mapM getNumCell)
  pure { featNames := df.cols
         stats := colsData.map (fun c => medianQ (c.filterMap id)) }

/-- Transform one row against the per-column statistics: observed
values pass through, missing values are replaced by the fitted median,
and a column whose statistic is none (all-missing at fit time) is
dropped from the output.  Fails on a non-numeric cell or a shape
mismatch. -/
def transformRow : List Val → List (Option ℚ) → Option (List ℚ)
  | [], [] => some []
  | v :: vs, st :: sts => do
      let rest ← transformRow vs sts
      match st with
      | none => match getNumCell v with
        | some _ => pure rest
        | none => none
      | some m => match v with
        | Val.num q => pure (q :: rest)
        | Val.na => pure (m :: rest)
        | _ => none
  | _, _ => none

/-- imputer.transform(df): the feature names must match the fit, then
every row is transformed against the statistics. -/
def transformImputer (imp : Imputer) (df : DF) : Option (List (List ℚ)) :=
  if df.cols = imp.featNames then df.rows.mapM (fun r => transformRow r imp.stats)
  else none

/-- pd.DataFrame(X, columns=cols, index=index): wrap a numeric array,
checking the shape against the supplied column names and index. -/
def mkDF (data : List (List ℚ)) (cols : List String) (index : List Int) : Option DF :=
  if (data.all (fun r => r.length == cols.length)) && (data.length == index.length) then
    some { cols := cols, index := index, rows := data.map (fun r => r.map Val.num) }
  else none

/-- Float division of two finite cells: the exact quotient for a
nonzero divisor; for a zero divisor the float artifacts, an infinity
of the sign of the dividend or NaN for 0/0.  The ratio columns are
computed from the imputed numeric table, so both operands are always
finite numbers; any other operand shape yields NaN. -/
def ratioDiv : Val → Val → Val
  | Val.num a, Val.num b =>
      if b = 0 then (if a = 0 then Val.na else if 0 < a then Val.pinf else Val.ninf)
      else Val.num (a / b)
  | _, _ => Val.na

/-- The three derived ratio columns, in the order the source assigns
them, each an elementwise division of two named columns of the imputed
table.  The same three assignments appear verbatim in the train and
the test path of the source. -/
def addRatioColumns (df : DF) : Option DF := do
  let tr ← df.getCol "total_rooms"
  let hh ← df.getCol "households"
  let df1 := df.addCol "rooms_per_household" (List.zipWith ratioDiv tr hh)
  let tb ← df1.getCol "total_bedrooms"
  let tr1 ← df1.getCol "total_rooms"
  let df2 := df1.addCol "bedrooms_per_room" (List.zipWith ratioDiv tb tr1)
  let pop ← df2.getCol "population"
  let hh1 ← df2.getCol "households"
  pure (df2.addCol "population_per_household" (List.zipWith ratioDiv pop hh1))

/-- Lexicographic comparison of character lists, the order in which
the category values are sorted. -/
def charsLe : List Char → List Char → Bool
  | [], _ => true
  | _ :: _, [] => false
  | a :: as, b :: bs => if a = b then charsLe as bs else decide (a < b)

/-- Lexicographic string comparison. -/
def strLe (a b : String) : Bool := charsLe a.data b.data

/-- The sorted distinct categories of a categorical column (pandas
builds the dummy columns from the sorted unique values). -/
def sortedCats (vals : List (Option String)) : List String :=
  sortLe strLe (vals.filterMap id).dedup

/-- The cells of the categorical column read as optional strings: a
missing cell carries no category; a numeric cell is outside the
modelled fragment (the categorical column holds strings). -/
def catOptStrs (cells : List Val) : Option (List (Option String)) :=
  cells.mapM (fun v => match v with
    | Val.str s => some (some s)
    | Val.na => some (none : Option String)
    | _ => none)

/-- pd.get_dummies(df[[col]], drop_first=True, dtype=int): one integer
indicator column per category except the first (baseline) category, in
sorted order, named col_category; a missing cell yields all-zero
indicators. -/
def getDummies (colName : String) (cells : List Val) (index : List Int) : Option DF := do
  let vals ← catOptStrs cells
  let dummyCats := (sortedCats vals).drop 1
  pure { cols := dummyCats.map (fun c => colName ++ "_" ++ c)
         index := index
         rows := vals.map (fun v =>
           dummyCats.map (fun c => if v = some c then Val.num 1 else Val.num 0)) }

/-- a.join(b) as the source uses it: both frames carry the same unique
row index (b is built from a subset of the same partition), so the
join appends the columns of b.  The duplicate-index or reindexing
cases of a pandas join never arise in the pipeline and are not
modelled. -/
def joinDF (a b : DF) : Option DF :=
  if b.index = a.index ∧ a.index.Nodup then
    some { cols := a.cols ++ b.cols
           index := a.index
           rows := List.zipWith (fun r r2 => r ++ r2) a.rows b.rows }
  else none

/-- feature_engineering_traindataset: extract the target as the label
vector, drop it, drop the categorical column, fit the median imputer
on the remaining numeric table, transform with it, rebuild a frame,
derive the three ratio columns, and join the dummy columns of the
categorical attribute.  Returns the features, the labels and the
fitted imputer. -/
def feature_engineering_traindataset (housing : DF) :
    Option (DF × List Val × Imputer) := do
  let y_train ← housing.getCol "median_house_value"
  let housing1 ← housing.dropCol "median_house_value"
  let housing_num ← housing1.dropCol "ocean_proximity"
  let imputer ← fitImputer housing_num
  let X ← transformImputer imputer housing_num
  let housing_tr ← mkDF X housing_num.cols housing1.index
  let housing_tr2 ← addRatioColumns housing_tr
  let housing_cat ← housing1.getCol "ocean_proximity"
  let dummies ← getDummies "ocean_proximity" housing_cat housing1.index
  let X_train ← joinDF housing_tr2 dummies
  pure (X_train, y_train, imputer)

/-- feature_engineering_testdataset: same steps on the test partition,
except the received imputer is applied (transform) and never fitted.
The imputer state is threaded through and returned so that its value
after the call is a stated fact rather than a convention. -/
def feature_engineering_testdataset (housing_test : DF) (imputer : Imputer) :
    Option (DF × List Val × Imputer) := do
  let y_test ← housing_test.getCol "median_house_value"
  let X_test ← housing_test.dropCol "median_house_value"
  let X_test_num ← X_test.dropCol "ocean_proximity"
  let Xp ← transformImputer imputer X_test_num
  let X_test_prepared ← mkDF Xp X_test_num.cols X_test.index
  let X_test_prepared2 ← addRatioColumns X_test_prepared
  let X_test_cat ← X_test.getCol "ocean_proximity"
  let dummies ← getDummies "ocean_proximity" X_test_cat X_test.index
  let X_out ← joinDF X_test_prepared2 dummies
  pure (X_out, y_test, imputer)

/-- The sorted distinct category values of a partition as the dummy
encoding observes them: the ocean_proximity column of the partition
with the target dropped, read as optional strings and reduced to its
sorted distinct values. -/
def partitionCats (df : DF) : Option (List String) := do
  let h1 ← df.dropCol "median_house_value"
  let cat ← h1.getCol "ocean_proximity"
  let vals ← catOptStrs cat
  pure (sortedCats vals)

/-- The draws the splitter takes from the numpy random generator: the
per-class train and test size allocations (approximate_mode), a
permutation of each class's member positions, and the final shuffles.
The first argument of the permutation fields is an abstract draw
channel. -/
structure SplitRNG where
  allocTrain : List Nat → Nat → List Nat
  allocTest : List Nat → Nat → List Nat
  permClass : Nat → Nat → List Nat
  permFinal : Nat → Nat → List Nat

/-- The contract the numpy generator satisfies: each allocation has one
entry per class, stays within the per-class budget, and spends the
requested total when the budget allows it; each permutation draw is a
permutation of the positions it shuffles. -/
structure RngOK (rng : SplitRNG) : Prop where
  allocTrain_length : ∀ counts k, (rng.allocTrain counts k).length = counts.length
  allocTrain_le : ∀ counts k, List.Forall₂ (· ≤ ·) (rng.allocTrain counts k) counts
  allocTrain_sum : ∀ counts k, k ≤ counts.sum → (rng.allocTrain counts k).sum = k
  allocTest_length : ∀ counts k, (rng.allocTest counts k).length = counts.length
  allocTest_le : ∀ counts k, List.Forall₂ (· ≤ ·) (rng.allocTest counts k) counts
  allocTest_sum : ∀ counts k, k ≤ counts.sum → (rng.allocTest counts k).sum = k
  permClass_perm : ∀ i s, (rng.permClass i s).Perm (List.range s)
  permFinal_perm : ∀ i s, (rng.permFinal i s).Perm (List.range s)

/-- numpy array.take(permutation): reorder a position list by a drawn
permutation of its positions. -/
def applyPerm (p : List Nat) (l : List Nat) : List Nat :=
  p.map (fun k => l.getD k 0)

/-- Greedy in-budget allocation: spend as much of the request on each
class in turn.  Together with the rotations below this is a concrete
deterministic instance of the generator contract. -/
def greedyAlloc : List Nat → Nat → List Nat
  | [], _ => []
  | c :: cs, k => min c k :: greedyAlloc cs (k - min c k)

/-- The seeded generator, numpy RandomState(seed): a fixed
deterministic function of the seed.  The numpy bit-stream itself is
abstracted: this instance realises the generator contract with greedy
allocations and rotations, and every pipeline property proved below
depends on the generator only through that contract. -/
def seededRng (seed : Nat) : SplitRNG :=
  { allocTrain := fun counts k => greedyAlloc counts k
    allocTest := fun counts k => greedyAlloc counts k
    permClass := fun i s => (List.range s).rotate (seed + i)
    permFinal := fun i s => (List.range s).rotate (seed + i) }

/-- The distinct classes of the stratification label vector. -/
def classesOf (y : List Val) : List Val := y.dedup

/-- The per-class member counts. -/
def countsOf (y : List Val) : List Nat :=
  (classesOf y).map (fun c => List.count c y)

/-- The positions of each class's members (np.where(y == class)). -/
def classIdxOf (y : List Val) : List (List Nat) :=
  (classesOf y).map
    (fun c => (List.range y.length).filter (fun j => y.getD j Val.na == c))

/-- Each class's member positions reordered by that class's drawn
permutation. -/
def permutedOf (rng : SplitRNG) (y : List Val) : List (List Nat) :=
  (classIdxOf y).enum.map (fun q => applyPerm (rng.permClass q.1 q.2.length) q.2)

/-- The per-class shuffled positions paired with that class's drawn
train and test allocation. -/
def withCountsOf (rng : SplitRNG) (y : List Val) (nTrain nTest : Nat) :
    List (List Nat × Nat × Nat) :=
  (permutedOf rng y).zip
    ((rng.allocTrain (countsOf y) nTrain).zip
      (rng.allocTest
        (List.zipWith (fun a b => a - b) (countsOf y)
          (rng.allocTrain (countsOf y) nTrain)) nTest))

/-- The concatenation over classes of each class's train block. -/
def trainPreOf (rng : SplitRNG) (y : List Val) (nTrain nTest : Nat) : List Nat :=
  ((withCountsOf rng y nTrain nTest).map (fun x => x.1.take x.2.1)).flatten

/-- The concatenation over classes of each class's test block. -/
def testPreOf (rng : SplitRNG) (y : List Val) (nTrain nTest : Nat) : List Nat :=
  ((withCountsOf rng y nTrain nTest).map
    (fun x => (x.1.drop x.2.1).take x.2.2)).flatten

/-- StratifiedShuffleSplit(n_splits=1, test_size=0.2).iter_indices on
the label vector y: validate (every class at least 2 members, train
and test sizes at least the class count), allocate per-class train and
test sizes, shuffle each class's member positions, take the train and
test blocks of each class, and shuffle the two concatenations.
Returns positional train and test indices; none models the ValueError
raises of the validation. -/
def iterIndices (rng : SplitRNG) (y : List Val) : Option (List Nat × List Nat) :=
  let n := y.length
  let nTest := (n + 4) / 5
  let nTrain := n - nTest
  if (countsOf y).any (fun k => k < 2) ||
      decide (nTrain < (classesOf y).length) ||
      decide (nTest < (classesOf y).length) then
    none
  else
    some (applyPerm (rng.permFinal 0 (trainPreOf rng y nTrain nTest).length)
            (trainPreOf rng y nTrain nTest),
          applyPerm (rng.permFinal 1 (testPreOf rng y nTrain nTest).length)
            (testPreOf rng y nTrain nTest))

/-- Positions at which an index carries the label l. -/
def positionsOf (index : List Int) (l : Int) : List Nat :=
  (List.range index.length).filter (fun p => index.getD p 0 == l)

/-- df.loc with a list of labels: every requested label must be
present (else KeyError, none); each label contributes the rows at all
of its positions, in request order. -/
def DF.loc (df : DF) (labels : List Int) : Option DF :=
  if labels.all (fun l => decide (l ∈ df.index)) then
    some { cols := df.cols
           index := labels.flatMap (fun l => (positionsOf df.index l).map (fun _ => l))
           rows := labels.flatMap
             (fun l => (positionsOf df.index l).map (fun p => df.rows.getD p [])) }
  else none

/-- startified_split: draw the single stratified split of the binned
table on the income_cat labels, then select each partition by
label-based indexing with the positional indices the splitter
produced. -/
def startified_split (rng : SplitRNG) (housing : DF) : Option (DF × DF) := do
  let y ← housing.getCol "income_cat"
  let (trainIdx, testIdx) ← iterIndices rng y
  let strat_train_set ← housing.loc (trainIdx.map Int.ofNat)
  let strat_test_set ← housing.loc (testIdx.map Int.ofNat)
  pure (strat_train_set, strat_test_set)

/-- Positional row selection (how train_test_split materialises its
partitions). -/
def DF.iloc (df : DF) (ps : List Nat) : DF :=
  { cols := df.cols
    index := ps.map (fun p => df.index.getD p 0)
    rows := ps.map (fun p => df.rows.getD p []) }

/-- train_test_split(housing, test_size=0.2): one shuffled
non-stratified permutation split, test block first.  Its result is
only fed to the diagnostic proportion comparison. -/
def train_test_split_m (rng : SplitRNG) (df : DF) : DF × DF :=
  let n := df.rows.length
  let nTest := (n + 4) / 5
  let perm := rng.permFinal 2 n
  (df.iloc (perm.drop nTest), df.iloc (perm.take nTest))

/-- value_counts of the income_cat column divided by the row count.
The display order of value_counts does not matter downstream: the
result is only read by the diagnostic comparison, which discards it. -/
def income_cat_proportions (data : DF) : Option (List (Val × ℚ)) := do
  let vals ← data.getCol "income_cat"
  pure (vals.dedup.map (fun v => (v, (List.count v vals : ℚ) / vals.length)))

/-- calculate_proportions builds the comparison frame of the three
proportion series and two error columns and returns None; only its
possible KeyError on a frame without income_cat is observable, so the
arithmetic of the error columns is elided. -/
def calculate_proportions (housing strat_test_set test_set : DF) : Option Unit := do
  let _ ← income_cat_proportions housing
  let _ ← income_cat_proportions strat_test_set
  let _ ← income_cat_proportions test_set
  pure ()

/-- drop_income_cat: drop the stratification column from both
partitions. -/
def drop_income_cat (strat_train_set strat_test_set : DF) : Option (DF × DF) := do
  let a ← strat_train_set.dropCol "income_cat"
  let b ← strat_test_set.dropCol "income_cat"
  pure (a, b)

/-- One CSV as to_csv(index=False) serialises a frame: the header line
and the cell rows, no index column. -/
structure Csv where
  header : List String
  body : List (List Val)
  deriving DecidableEq, Repr

/-- df.to_csv(index=False). -/
def dfCsv (df : DF) : Csv := { header := df.cols, body := df.rows }

/-- series.to_csv(index=False): one named column of values. -/
def seriesCsv (name : String) (vals : List Val) : Csv :=
  { header := [name], body := vals.map (fun v => [v]) }

/-- Process state: the working directory and the files on disk. -/
structure Sys where
  cwd : String
  files : List (String × Csv)
  deriving DecidableEq, Repr

/-- Writing a file overwrites an existing file of that path, else
creates it. -/
def setFile (fs : List (String × Csv)) (n : String) (c : Csv) : List (String × Csv) :=
  if fs.any (fun p => p.1 == n) then
    fs.map (fun p => if p.1 == n then (n, c) else p)
  else fs ++ [(n, c)]

/-- The sequence of to_csv calls: each write attempt consumes the next
entry of the outcome oracle (headD true: no injected failure means
success) and is recorded in the attempt trace; the first failing write
raises, stopping the sequence with the state as written so far. -/
def writeSeq : List Bool → List (String × Csv) → Sys → Bool × Sys × List String
  | _, [], s => (true, s, [])
  | outs, (n, c) :: ps, s =>
      if outs.headD true then
        let r := writeSeq outs.tail ps { s with files := setFile s.files n c }
        (r.1, r.2.1, n :: r.2.2)
      else (false, s, [n])

/-- os.path.join for the relative output filenames the writer builds. -/
def pathJoin (a b : String) : String := a ++ "/" ++ b

/-- The (path, contents) pairs save_processdata writes, in write
order: the four output names joined onto the output directory, paired
with the serialised train features, train labels, test features and
test labels. -/
def outputPairs (INPUT_FILE OUTPUT_PATH : String) (X_train : DF) (y_train : List Val)
    (X_test : DF) (y_test : List Val) : List (String × Csv) :=
  ((outputFilenames INPUT_FILE).map (pathJoin OUTPUT_PATH)).zip
    [dfCsv X_train, seriesCsv "median_house_value" y_train,
     dfCsv X_test, seriesCsv "median_house_value" y_test]

/-- save_processdata: derive the four output names from the input
filename, write the four tables in order (train features, train
labels, test features, test labels), then chdir to the output
directory for the absolute-path log lines and chdir back to the
directory captured at module import (cw_dir).  The log file itself is
outside the functional contract.  Returns the success flag, the final
process state, and the trace of attempted writes. -/
def save_processdata (outcomes : List Bool) (cwDir : String) (X_train : DF)
    (y_train : List Val) (X_test : DF) (y_test : List Val)
    (INPUT_FILE OUTPUT_PATH : String) (sys : Sys) : Bool × Sys × List String :=
  match writeSeq outcomes (outputPairs INPUT_FILE OUTPUT_PATH X_train y_train X_test y_test) sys with
  | (true, s, tr) => (true, { { s with cwd := OUTPUT_PATH } with cwd := cwDir }, tr)
  | (false, s, tr) => (false, s, tr)

/-- The generator actually used at a call site: random_state=s means
the seeded deterministic generator; random_state=None would fall back
to the ambient process entropy. -/
def resolveRng : Option Nat → SplitRNG → SplitRNG
  | some s, _ => seededRng s
  | none, env => env

/-- load_housing_data: pd.read_csv gives the parsed table the default
RangeIndex 0..n-1.  CSV parsing itself is not modelled: the loader
receives the parsed header and rows. -/
def load_housing_data (cols : List String) (data : List (List Val)) : DF :=
  { cols := cols
    index := (List.range data.length).map Int.ofNat
    rows := data }

/-- init_preprocess: the full pipeline.  make_dirs only ensures the
output directory exists and is not otherwise observable here.  env is
the ambient process entropy; both library split calls pass
random_state=42 and therefore resolve to the seeded generator.  The
non-stratified split and the proportion comparison are diagnostic
only; the comparison is still bound so that its possible raise aborts
the run as in the source. -/
def init_preprocess (env : SplitRNG) (cols : List String) (data : List (List Val))
    (INPUT_FILE OUTPUT_PATH cwDir : String) (outcomes : List Bool) (sys : Sys) :
    Option (Bool × Sys × List String) := do
  let housing := load_housing_data cols data
  let housing ← binning housing
  let (strat_train_set, strat_test_set) ← startified_split (resolveRng (some 42) env) housing
  let (_train_set, test_set) := train_test_split_m (resolveRng (some 42) env) housing
  let _ ← calculate_proportions housing strat_test_set test_set
  let (strat_train_set2, strat_test_set2) ← drop_income_cat strat_train_set strat_test_set
  let (X_train, y_train, imputer) ← feature_engineering_traindataset strat_train_set2
  let (X_test, y_test, _) ← feature_engineering_testdataset strat_test_set2 imputer
  pure (save_processdata outcomes cwDir X_train y_train X_test y_test INPUT_FILE OUTPUT_PATH sys)

/-- The five-bin specification of the stratification label: closed on
the right at every inner boundary, so a boundary income belongs to the
lower bin, and open at 0 on the left. -/
def specBin (q l : ℚ) : Prop :=
  (l = 1 ∧ 0 < q ∧ q ≤ 1.5) ∨ (l = 2 ∧ 1.5 < q ∧ q ≤ 3) ∨
  (l = 3 ∧ 3 < q ∧ q ≤ 4.5) ∨ (l = 4 ∧ 4.5 < q ∧ q ≤ 6) ∨ (l = 5 ∧ 6 < q)

/-- The observed (non-missing, finite) values of column j of a frame,
the data a median imputation statistic is computed from. -/
def observedCol (df : DF) (j : Nat) : List ℚ :=
  (df.rows.map (fun r => r.getD j Val.na)).filterMap
    (fun v => match v with | Val.num q => some q | _ => none)

/-- A one-row table whose income sits exactly on the lowest boundary. -/
def incomeZeroDF : DF :=
  { cols := ["median_income"], index := [0], rows := [[Val.num 0]] }

/-- A one-row table with a strictly positive income. -/
def incomeTwoDF : DF :=
  { cols := ["median_income"], index := [0], rows := [[Val.num 2]] }

/-- The empty frame. -/
def emptyDF : DF := { cols := [], index := [], rows := [] }

/-- incomeTwoDF after binning. -/
def binnedTwoDF : DF :=
  { cols := ["median_income", "income_cat"], index := [0],
    rows := [[Val.num 2, Val.num 2]] }

/-- A small binned table: ten rows, one income class, default row
labels 0..9. -/
def housing10binned : DF :=
  { cols := ["median_income", "median_house_value", "income_cat"]
    index := [0, 1, 2, 3, 4, 5, 6, 7, 8, 9]
    rows := [[Val.num 2, Val.num 100, Val.num 2], [Val.num 2, Val.num 101, Val.num 2],
             [Val.num 2, Val.num 102, Val.num 2], [Val.num 2, Val.num 103, Val.num 2],
             [Val.num 2, Val.num 104, Val.num 2], [Val.num 2, Val.num 105, Val.num 2],
             [Val.num 2, Val.num 106, Val.num 2], [Val.num 2, Val.num 107, Val.num 2],
             [Val.num 2, Val.num 108, Val.num 2], [Val.num 2, Val.num 109, Val.num 2]] }

/-- housing10binned with its row labels shifted by one, so the default
positional labels 0..9 are not all present. -/
def housing10shifted : DF :=
  { housing10binned with index := [1, 2, 3, 4, 5, 6, 7, 8, 9, 10] }

/-- The train partition the seeded model split draws from
housing10binned. -/
def strat10train : DF :=
  { cols := ["median_income", "median_house_value", "income_cat"]
    index := [4, 5, 6, 7, 8, 9, 2, 3]
    rows := [[Val.num 2, Val.num 104, Val.num 2], [Val.num 2, Val.num 105, Val.num 2],
             [Val.num 2, Val.num 106, Val.num 2], [Val.num 2, Val.num 107, Val.num 2],
             [Val.num 2, Val.num 108, Val.num 2], [Val.num 2, Val.num 109, Val.num 2],
             [Val.num 2, Val.num 102, Val.num 2], [Val.num 2, Val.num 103, Val.num 2]] }

/-- The test partition the seeded model split draws from
housing10binned. -/
def strat10test : DF :=
  { cols := ["median_income", "median_house_value", "income_cat"]
    index := [1, 0]
    rows := [[Val.num 2, Val.num 101, Val.num 2], [Val.num 2, Val.num 100, Val.num 2]] }

/-- A two-row train partition holding both categories A and B. -/
def trainDF : DF :=
  { cols := ["total_rooms", "total_bedrooms", "population", "households",
             "ocean_proximity", "median_house_value"]
    index := [0, 1]
    rows := [[Val.num 10, Val.num 5, Val.num 20, Val.num 2, Val.str "A", Val.num 100],
             [Val.num 8, Val.num 4, Val.num 16, Val.num 4, Val.str "B", Val.num 200]] }

/-- A two-row test partition of the same schema holding only category
A, with one missing bedroom count. -/
def testDF : DF :=
  { cols := ["total_rooms", "total_bedrooms", "population", "households",
             "ocean_proximity", "median_house_value"]
    index := [2, 3]
    rows := [[Val.num 6, Val.num 3, Val.num 12, Val.num 3, Val.str "A", Val.num 150],
             [Val.num 4, Val.na, Val.num 8, Val.num 2, Val.str "A", Val.num 250]] }

/-- A three-row train partition holding categories A and B, with odd
column counts so every fitted median is one of the observed values. -/
def trainDF3 : DF :=
  { cols := ["total_rooms", "total_bedrooms", "population", "households",
             "ocean_proximity", "median_house_value"]
    index := [0, 1, 2]
    rows := [[Val.num 10, Val.num 5, Val.num 20, Val.num 2, Val.str "A", Val.num 100],
             [Val.num 8, Val.num 4, Val.num 16, Val.num 4, Val.str "B", Val.num 200],
             [Val.num 6, Val.num 3, Val.num 12, Val.num 3, Val.str "A", Val.num 150]] }

/-- The imputer fitted on the numeric part of trainDF3. -/
def impC1 : Imputer :=
  { featNames := ["total_rooms", "total_bedrooms", "population", "households"]
    stats := [some 8, some 4, some 16, some 3] }

/-- The train features produced from trainDF3 (ratio cells written as
the unevaluated quotients the computation produces). -/
def XtrainC1 : DF :=
  { cols := ["total_rooms", "total_bedrooms", "population", "households",
             "rooms_per_household", "bedrooms_per_room", "population_per_household",
             "ocean_proximity_B"]
    index := [0, 1, 2]
    rows := [[Val.num 10, Val.num 5, Val.num 20, Val.num 2,
              Val.num (10 / 2), Val.num (5 / 10), Val.num (20 / 2), Val.num 0],
             [Val.num 8, Val.num 4, Val.num 16, Val.num 4,
              Val.num (8 / 4), Val.num (4 / 8), Val.num (16 / 4), Val.num 1],
             [Val.num 6, Val.num 3, Val.num 12, Val.num 3,
              Val.num (6 / 3), Val.num (3 / 6), Val.num (12 / 3), Val.num 0]] }

/-- The train labels of trainDF3. -/
def ytrainC1 : List Val := [Val.num 100, Val.num 200, Val.num 150]

/-- The test features produced from testDF under impC1 (the missing
bedroom count imputed by the fitted median 4; only category A occurs,
so drop_first leaves no indicator column). -/
def XtestC1 : DF :=
  { cols := ["total_rooms", "total_bedrooms", "population", "households",
             "rooms_per_household", "bedrooms_per_room", "population_per_household"]
    index := [2, 3]
    rows := [[Val.num 6, Val.num 3, Val.num 12, Val.num 3,
              Val.num (6 / 3), Val.num (3 / 6), Val.num (12 / 3)],
             [Val.num 4, Val.num 4, Val.num 8, Val.num 2,
              Val.num (4 / 2), Val.num (4 / 4), Val.num (8 / 2)]] }

/-- The test labels of testDF. -/
def ytestC1 : List Val := [Val.num 150, Val.num 250]

/-- A two-row test partition exhibiting the same category set A, B as
trainDF3. -/
def testSameCats : DF :=
  { cols := ["total_rooms", "total_bedrooms", "population", "households",
             "ocean_proximity", "median_house_value"]
    index := [2, 3]
    rows := [[Val.num 6, Val.num 3, Val.num 12, Val.num 3, Val.str "A", Val.num 150],
             [Val.num 4, Val.na, Val.num 8, Val.num 2, Val.str "B", Val.num 250]] }

/-- The test features produced from testSameCats under impC1. -/
def XtestC4 : DF :=
  { cols := ["total_rooms", "total_bedrooms", "population", "households",
             "rooms_per_household", "bedrooms_per_room", "population_per_household",
             "ocean_proximity_B"]
    index := [2, 3]
    rows := [[Val.num 6, Val.num 3, Val.num 12, Val.num 3,
              Val.num (6 / 3), Val.num (3 / 6), Val.num (12 / 3), Val.num 0],
             [Val.num 4, Val.num 4, Val.num 8, Val.num 2,
              Val.num (4 / 2), Val.num (4 / 4), Val.num (8 / 2), Val.num 1]] }

namespace Lemmas

theorem strMkData (s : String) : String.mk s.data = s := rfl

theorem strDataInj {s t : String} (h : s.data = t.data) : s = t := by
  cases s
  cases t
  cases h
  rfl

theorem strAppendNe (p : String) {s t : String} (h : s ≠ t) : p ++ s ≠ p ++ t := by
  intro e
  apply h
  apply strDataInj
  have e2 : (p ++ s).data = (p ++ t).data := by rw [e]
  rw [String.data_append, String.data_append] at e2
  exact List.append_cancel_left e2

theorem splitDot_prefix (l r : List Char) (h : '.' ∉ l) :
    splitDot (l ++ '.' :: r) = l :: splitDot r := by
  induction l with
  | nil => simp [splitDot]
  | cons c cs ih =>
      have hc : ¬ c = '.' := fun e => h (by rw [e]; exact List.mem_cons_self _ _)
      have hcs : '.' ∉ cs := fun hm => h (List.mem_cons_of_mem _ hm)
      simp only [List.cons_append, splitDot, if_neg hc, List.append_eq, ih hcs]

theorem mapM_opt_spec {α β : Type} (f : α → Option β) :
    ∀ (l : List α) (res : List β), l.mapM f = some res →
      res.length = l.length ∧
      ∀ (i : Nat) (d : α) (d' : β), i < l.length →
        f (l.getD i d) = some (res.getD i d') := by
  intro l
  induction l with
  | nil =>
      intro res h
      simp only [List.mapM_nil, pure, Option.some.injEq] at h
      subst h
      exact ⟨rfl, fun i d d' hi => absurd hi (Nat.not_lt_zero i)⟩
  | cons a l ih =>
      intro res h
      simp only [List.mapM_cons, bind, Option.bind_eq_some, pure,
        Option.some.injEq] at h
      obtain ⟨b, hb, bs, hbs, hres⟩ := h
      subst hres
      obtain ⟨hlen, hget⟩ := ih bs hbs
      refine ⟨by simp [hlen], ?_⟩
      intro i d d' hi
      cases i with
      | zero => simpa using hb
      | succ i => exact hget i d d' (Nat.lt_of_succ_lt_succ hi)

theorem colIdx_not_mem {c : String} : ∀ {cols : List String}, c ∉ cols →
    colIdx c cols = none := by
  intro cols
  induction cols with
  | nil => intro _; rfl
  | cons d cols ih =>
      intro h
      have hd : ¬ d = c := fun e => h (by rw [e]; exact List.mem_cons_self _ _)
      have h2 : c ∉ cols := fun hm => h (List.mem_cons_of_mem _ hm)
      simp [colIdx, hd, ih h2]

theorem colIdx_append_fresh {c : String} : ∀ {cols : List String}, c ∉ cols →
    colIdx c (cols ++ [c]) = some cols.length := by
  intro cols
  induction cols with
  | nil => intro _; simp [colIdx]
  | cons d cols ih =>
      intro h
      have hd : ¬ d = c := fun e => h (by rw [e]; exact List.mem_cons_self _ _)
      have h2 : c ∉ cols := fun hm => h (List.mem_cons_of_mem _ hm)
      simp [colIdx, hd, ih h2]

theorem colIdx_append_single_ne {c c' : String} (hne : ¬ c' = c) :
    ∀ (cols : List String), colIdx c' (cols ++ [c]) = colIdx c' cols := by
  intro cols
  induction cols with
  | nil =>
      have hcc : ¬ c = c' := fun h => hne h.symm
      simp [colIdx, hcc]
  | cons d cols ih => simp [colIdx, ih]

theorem colIdx_lt {c : String} : ∀ {cols : List String} {j : Nat},
    colIdx c cols = some j → j < cols.length ∧ cols.getD j "" = c := by
  intro cols
  induction cols with
  | nil => intro j h; cases h
  | cons d cols ih =>
      intro j h
      by_cases hd : d = c
      · rw [colIdx, if_pos hd] at h
        injection h with h0
        subst h0
        exact ⟨Nat.succ_pos _, hd⟩
      · rw [colIdx, if_neg hd] at h
        rcases hm : colIdx c cols with _ | j0
        · rw [hm] at h; cases h
        · rw [hm] at h
          simp only [Option.map_some', Option.some.injEq] at h
          subst h
          obtain ⟨h1, h2⟩ := ih hm
          exact ⟨Nat.succ_lt_succ h1, h2⟩

theorem zip_append_map_getD (k : Nat) :
    ∀ (rows : List (List Val)) (vals : List Val),
      (∀ r ∈ rows, r.length = k) → rows.length = vals.length →
      (List.zipWith (fun r v => r ++ [v]) rows vals).map
        (fun r => r.getD k Val.na) = vals := by
  intro rows
  induction rows with
  | nil =>
      intro vals _ hlen
      cases vals
      · rfl
      · cases hlen
  | cons r rows ih =>
      intro vals hwf hlen
      cases vals with
      | nil => cases hlen
      | cons v vals =>
          have hr : r.length = k := hwf r (List.mem_cons_self _ _)
          simp only [List.zipWith_cons_cons, List.map_cons]
          rw [ih vals (fun r2 h2 => hwf r2 (List.mem_cons_of_mem _ h2))
            (Nat.succ.inj hlen)]
          congr 1
          rw [List.getD_append_right r [v] Val.na k (Nat.le_of_eq hr)]
          simp [hr]

theorem zip_append_map_getD_lt {k j : Nat} (hj : j < k) :
    ∀ (rows : List (List Val)) (vals : List Val),
      (∀ r ∈ rows, r.length = k) → rows.length = vals.length →
      (List.zipWith (fun r v => r ++ [v]) rows vals).map
        (fun r => r.getD j Val.na) = rows.map (fun r => r.getD j Val.na) := by
  intro rows
  induction rows with
  | nil =>
      intro vals _ hlen
      cases vals
      · rfl
      · cases hlen
  | cons r rows ih =>
      intro vals hwf hlen
      cases vals with
      | nil => cases hlen
      | cons v vals =>
          have hr : r.length = k := hwf r (List.mem_cons_self _ _)
          simp only [List.zipWith_cons_cons, List.map_cons]
          rw [ih vals (fun r2 h2 => hwf r2 (List.mem_cons_of_mem _ h2))
            (Nat.succ.inj hlen)]
          congr 1
          exact List.getD_append _ _ _ _ (by omega)

theorem getCol_length {df : DF} {c : String} {col : List Val}
    (h : df.getCol c = some col) : col.length = df.rows.length := by
  unfold DF.getCol at h
  rcases hp : df.colPos c with _ | j
  · rw [hp] at h; cases h
  · rw [hp] at h
    simp only [Option.map_some', Option.some.injEq] at h
    rw [← h]
    simp

theorem addCol_fresh_cols (df : DF) (c : String) (vals : List Val)
    (hfresh : c ∉ df.cols) :
    (df.addCol c vals).cols = df.cols ++ [c] ∧
    (df.addCol c vals).index = df.index ∧
    (df.addCol c vals).rows = List.zipWith (fun r v => r ++ [v]) df.rows vals := by
  unfold DF.addCol
  rw [show df.colPos c = none from colIdx_not_mem hfresh]
  exact ⟨rfl, rfl, rfl⟩

theorem getCol_eq (df : DF) (c : String) :
    df.getCol c = (colIdx c df.cols).map
      (fun j => df.rows.map (fun r => r.getD j Val.na)) := rfl

theorem getCol_addCol_fresh {df : DF} {c : String} {vals : List Val}
    (hfresh : c ∉ df.cols)
    (hwf : ∀ r ∈ df.rows, r.length = df.cols.length)
    (hlen : vals.length = df.rows.length) :
    (df.addCol c vals).getCol c = some vals := by
  obtain ⟨hc, _, hr⟩ := addCol_fresh_cols df c vals hfresh
  rw [getCol_eq, hc, hr, colIdx_append_fresh hfresh]
  simp only [Option.map_some', Option.some.injEq]
  exact zip_append_map_getD df.cols.length df.rows vals hwf hlen.symm

theorem getCol_addCol_other {df : DF} {c c' : String} {vals : List Val}
    (hfresh : c ∉ df.cols) (hne : ¬ c' = c)
    (hwf : ∀ r ∈ df.rows, r.length = df.cols.length)
    (hlen : vals.length = df.rows.length) :
    (df.addCol c vals).getCol c' = df.getCol c' := by
  obtain ⟨hc, _, hr⟩ := addCol_fresh_cols df c vals hfresh
  rw [getCol_eq, hc, hr, colIdx_append_single_ne hne, getCol_eq]
  rcases hp : colIdx c' df.cols with _ | j
  · rfl
  · simp only [Option.map_some', Option.some.injEq]
    obtain ⟨hj, _⟩ := colIdx_lt hp
    exact zip_append_map_getD_lt hj df.rows vals hwf hlen.symm

theorem binning_eq (housing : DF) (inc labels : List Val)
    (hinc : housing.getCol "median_income" = some inc)
    (hmap : inc.mapM cutCell = some labels) :
    binning housing = some (housing.addCol "income_cat" labels) := by
  unfold binning
  rw [hinc]
  show (inc.mapM cutCell).bind
    (fun labels => some (housing.addCol "income_cat" labels)) = _
  rw [hmap]
  rfl

theorem binning_inv {housing hb : DF} (h : binning housing = some hb) :
    ∃ inc labels, housing.getCol "median_income" = some inc ∧
      inc.mapM cutCell = some labels ∧
      hb = housing.addCol "income_cat" labels := by
  unfold binning at h
  cases hg : housing.getCol "median_income" with
  | none =>
      rw [hg] at h
      have h2 : (none : Option DF) = some hb := h
      cases h2
  | some inc =>
      rw [hg] at h
      have h1 : (inc.mapM cutCell).bind
          (fun labels => some (housing.addCol "income_cat" labels)) = some hb := h
      cases hm : inc.mapM cutCell with
      | none =>
          rw [hm] at h1
          have h2 : (none : Option DF) = some hb := h1
          cases h2
      | some labels =>
          rw [hm] at h1
          exact ⟨inc, labels, rfl, hm, (Option.some.inj h1).symm⟩

theorem setFile_fresh (fs : List (String × Csv)) (n : String) (c : Csv)
    (h : ∀ pr ∈ fs, ¬ pr.1 = n) : setFile fs n c = fs ++ [(n, c)] := by
  unfold setFile
  have hany : fs.any (fun p => p.1 == n) = false := by
    rw [List.any_eq_false]
    intro pr hpr
    simpa using h pr hpr
  rw [hany]
  simp

theorem writeSeq_fail : ∀ (k : Nat) (ps : List (String × Csv)) (rest : List Bool)
    (sys : Sys), k < ps.length → (ps.map Prod.fst).Nodup →
    (∀ pr ∈ sys.files, pr.1 ∉ ps.map Prod.fst) →
    writeSeq (List.replicate k true ++ false :: rest) ps sys =
      (false, { sys with files := sys.files ++ ps.take k },
       (ps.map Prod.fst).take (k + 1)) := by
  intro k
  induction k with
  | zero =>
      intro ps rest sys hk _ _
      match ps, hk with
      | (n, c) :: ps, _ =>
        simp [writeSeq]
  | succ k ih =>
      intro ps rest sys hk hnd hfresh
      match ps, hk with
      | (n, c) :: ps, hk =>
        have hfst : ∀ pr ∈ sys.files, ¬ pr.1 = n := by
          intro pr hpr
          have := hfresh pr hpr
          simp only [List.map_cons, List.mem_cons] at this
          exact fun e => this (Or.inl e)
        have hnotin : n ∉ ps.map Prod.fst := by
          simp only [List.map_cons, List.nodup_cons] at hnd
          exact hnd.1
        have hfresh2 : ∀ pr ∈ ({ sys with files := sys.files ++ [(n, c)] } : Sys).files,
            pr.1 ∉ ps.map Prod.fst := by
          intro pr hpr
          simp only [List.mem_append, List.mem_singleton] at hpr
          rcases hpr with hpr | hpr
          · have := hfresh pr hpr
            simp only [List.map_cons, List.mem_cons] at this
            exact fun hm => this (Or.inr hm)
          · rw [hpr]
            exact hnotin
        have hnd2 : (ps.map Prod.fst).Nodup := by
          simp only [List.map_cons, List.nodup_cons] at hnd
          exact hnd.2
        have hk2 : k < ps.length := Nat.lt_of_succ_lt_succ hk
        have ihe := ih ps rest { sys with files := sys.files ++ [(n, c)] } hk2 hnd2 hfresh2
        simp only [List.replicate_succ, List.cons_append]
        show (if (true : Bool) then _ else _) = _
        rw [if_pos rfl]
        simp only [List.tail_cons]
        rw [setFile_fresh sys.files n c hfst, ihe]
        simp [List.append_assoc]

theorem pathNe (P b : String) {s t : String} (h : s ≠ t) :
    P ++ (b ++ s) ≠ P ++ (b ++ t) :=
  strAppendNe P (strAppendNe b h)

theorem pathsNodup (f out : String) :
    ((outputFilenames f).map (pathJoin out)).Nodup := by
  have h1 : ∀ {s t : String}, s ≠ t →
      pathJoin out (fileBase f ++ s) ≠ pathJoin out (fileBase f ++ t) :=
    fun h => pathNe (out ++ "/") (fileBase f) h
  unfold outputFilenames
  simp only [List.map_cons, List.map_nil, List.nodup_cons, List.mem_cons,
    List.not_mem_nil, List.mem_singleton, or_false, not_or, List.nodup_nil, and_true]
  exact ⟨⟨h1 (by decide), h1 (by decide), h1 (by decide)⟩,
    ⟨h1 (by decide), h1 (by decide)⟩, h1 (by decide), not_false⟩

theorem mapGetDRange {α : Type} (d : α) :
    ∀ (l : List α), (List.range l.length).map (fun j => l.getD j d) = l := by
  intro l
  induction l with
  | nil => rfl
  | cons a l ih =>
      rw [List.length_cons, List.range_succ_eq_map, List.map_cons, List.map_map]
      have h2 : (List.range l.length).map ((fun j => (a :: l).getD j d) ∘ Nat.succ)
          = (List.range l.length).map (fun j => l.getD j d) :=
        List.map_congr_left (fun j _ => rfl)
      rw [h2, ih]
      rfl

theorem dropCols_eq_filter (cols : List String) (c : String) :
    (dropColPositions cols c).map (fun j => cols.getD j "") =
      cols.filter (fun s => ¬ s == c) := by
  unfold dropColPositions
  conv_rhs => rw [← mapGetDRange "" cols]
  rw [List.filter_map]
  rfl

theorem dropCol_inv {df d : DF} {c : String} (h : df.dropCol c = some d) :
    d.cols = df.cols.filter (fun s => ¬ s == c) ∧
    d.index = df.index ∧
    d.rows.length = df.rows.length ∧
    (∀ r ∈ d.rows, r.length = d.cols.length) ∧
    d.cols ⊆ df.cols := by
  unfold DF.dropCol at h
  by_cases hm : c ∈ df.cols
  · rw [if_pos hm] at h
    injection h with h
    subst h
    refine ⟨dropCols_eq_filter df.cols c, rfl, by simp, ?_, ?_⟩
    · intro r hr
      simp only [List.mem_map] at hr
      obtain ⟨r0, _, hr0⟩ := hr
      rw [← hr0]
      simp [selectPositions, dropCols_eq_filter df.cols c]
    · rw [dropCols_eq_filter df.cols c]
      intro s hs
      exact List.mem_of_mem_filter hs
  · rw [if_neg hm] at h
    cases h

theorem mkDF_inv {data : List (List ℚ)} {cols : List String} {index : List Int}
    {df : DF} (h : mkDF data cols index = some df) :
    df.cols = cols ∧ df.index = index ∧
    df.rows = data.map (fun r => r.map Val.num) ∧
    (∀ r ∈ df.rows, r.length = cols.length) ∧
    df.rows.length = index.length := by
  unfold mkDF at h
  by_cases hc : (data.all (fun r => r.length == cols.length)) &&
      (data.length == index.length)
  · rw [if_pos hc] at h
    injection h with h
    subst h
    simp only [Bool.and_eq_true, List.all_eq_true, beq_iff_eq] at hc
    refine ⟨rfl, rfl, rfl, ?_, by simpa using hc.2⟩
    intro r hr
    simp only [List.mem_map] at hr
    obtain ⟨r0, hr0, he⟩ := hr
    rw [← he]
    simpa using hc.1 r0 hr0
  · rw [if_neg hc] at h
    cases h

theorem joinDF_inv {a b X : DF} (h : joinDF a b = some X) :
    X.cols = a.cols ++ b.cols ∧ X.index = a.index ∧
    X.rows = List.zipWith (fun r r2 => r ++ r2) a.rows b.rows ∧
    b.index = a.index ∧ a.index.Nodup := by
  unfold joinDF at h
  by_cases hc : b.index = a.index ∧ a.index.Nodup
  · rw [if_pos hc] at h
    injection h with h
    subst h
    exact ⟨rfl, rfl, rfl, hc.1, hc.2⟩
  · rw [if_neg hc] at h
    cases h

theorem colIdx_append_left {c : String} :
    ∀ {cols : List String} {j : Nat}, colIdx c cols = some j →
      ∀ (cols2 : List String), colIdx c (cols ++ cols2) = some j := by
  intro cols
  induction cols with
  | nil => intro j h; cases h
  | cons d cols ih =>
      intro j h cols2
      by_cases hd : d = c
      · rw [colIdx, if_pos hd] at h
        injection h with h0
        subst h0
        rw [List.cons_append, colIdx, if_pos hd]
      · rw [colIdx, if_neg hd] at h
        rcases hm : colIdx c cols with _ | j0
        · rw [hm] at h; cases h
        · rw [hm] at h
          simp only [Option.map_some', Option.some.injEq] at h
          subst h
          rw [List.cons_append, colIdx, if_neg hd, ih hm cols2]
          rfl

theorem zipWith_append_rows_getD {j : Nat} :
    ∀ (as bs : List (List Val)), (∀ r ∈ as, j < r.length) →
      as.length = bs.length →
      (List.zipWith (fun r r2 => r ++ r2) as bs).map (fun r => r.getD j Val.na) =
        as.map (fun r => r.getD j Val.na) := by
  intro as
  induction as with
  | nil =>
      intro bs _ hlen
      cases bs
      · rfl
      · cases hlen
  | cons r as ih =>
      intro bs hlt hlen
      cases bs with
      | nil => cases hlen
      | cons r2 bs =>
          simp only [List.zipWith_cons_cons, List.map_cons]
          rw [ih bs (fun x hx => hlt x (List.mem_cons_of_mem _ hx))
            (Nat.succ.inj hlen)]
          congr 1
          exact List.getD_append _ _ _ _ (hlt r (List.mem_cons_self _ _))

theorem getCol_join_left {a b X : DF} {c : String} {col : List Val}
    (h : joinDF a b = some X)
    (hwfa : ∀ r ∈ a.rows, r.length = a.cols.length)
    (hlen : b.rows.length = a.rows.length)
    (hcol : a.getCol c = some col) :
    X.getCol c = some col := by
  obtain ⟨hXc, _, hXr, _, _⟩ := joinDF_inv h
  rw [getCol_eq] at hcol
  rcases hp : colIdx c a.cols with _ | j
  · rw [hp] at hcol; cases hcol
  · rw [hp] at hcol
    simp only [Option.map_some', Option.some.injEq] at hcol
    obtain ⟨hj, _⟩ := colIdx_lt hp
    rw [getCol_eq, hXc, hXr, colIdx_append_left hp b.cols]
    simp only [Option.map_some', Option.some.injEq]
    rw [zipWith_append_rows_getD a.rows b.rows
      (fun r hr => by rw [hwfa r hr]; exact hj) hlen.symm]
    exact hcol

theorem mem_zipWith_append :
    ∀ {as : List (List Val)} {vals : List Val} {x : List Val},
      x ∈ List.zipWith (fun r v => r ++ [v]) as vals →
      ∃ r v, r ∈ as ∧ x = r ++ [v] := by
  intro as
  induction as with
  | nil => intro vals x hx; cases hx
  | cons r as ih =>
      intro vals x hx
      cases vals with
      | nil => cases hx
      | cons v vals =>
          simp only [List.zipWith_cons_cons, List.mem_cons] at hx
          rcases hx with hx | hx
          · exact ⟨r, v, List.mem_cons_self _ _, hx⟩
          · obtain ⟨r0, v0, hr0, he⟩ := ih hx
            exact ⟨r0, v0, List.mem_cons_of_mem _ hr0, he⟩

theorem addCol_fresh_wf {df : DF} {c : String} {vals : List Val}
    (hfresh : c ∉ df.cols) (hwf : ∀ r ∈ df.rows, r.length = df.cols.length)
    (hlen : vals.length = df.rows.length) :
    (∀ r ∈ (df.addCol c vals).rows, r.length = (df.addCol c vals).cols.length) ∧
    (df.addCol c vals).rows.length = df.rows.length := by
  obtain ⟨hc, _, hr⟩ := addCol_fresh_cols df c vals hfresh
  constructor
  · intro r hrr
    rw [hr] at hrr
    obtain ⟨r0, v0, hr0, he⟩ := mem_zipWith_append hrr
    rw [he, hc]
    simp [hwf r0 hr0]
  · rw [hr]
    simp [List.length_zipWith, hlen]

theorem mapM_getNumCell_filterMap : ∀ {col : List Val} {cl : List (Option ℚ)},
    col.mapM getNumCell = some cl →
    cl.filterMap id = col.filterMap
      (fun v => match v with | Val.num q => some q | _ => none) := by
  intro col
  induction col with
  | nil =>
      intro cl h
      have h2 : ([] : List (Option ℚ)) = cl := Option.some.inj h
      subst h2
      rfl
  | cons v vs ih =>
      intro cl h
      simp only [List.mapM_cons, bind, Option.bind_eq_some, pure,
        Option.some.injEq] at h
      obtain ⟨b, hb, bs, hbs, hcl⟩ := h
      subst hcl
      cases v with
      | num q =>
          have hbq : (some q : Option ℚ) = b := Option.some.inj hb
          subst hbq
          simp only [List.filterMap_cons]
          rw [ih hbs]
          rfl
      | na =>
          have hbn : (none : Option ℚ) = b := Option.some.inj hb
          subst hbn
          simp only [List.filterMap_cons]
          rw [ih hbs]
          rfl
      | pinf => cases hb
      | ninf => cases hb
      | str s => cases hb

theorem fitImputer_spec {df : DF} {imp : Imputer} (h : fitImputer df = some imp) :
    imp.featNames = df.cols ∧ imp.stats.length = df.cols.length ∧
    ∀ j, j < df.cols.length →
      imp.stats.getD j none = medianQ (observedCol df j) := by
  unfold fitImputer at h
  simp only [Option.bind_eq_bind, Option.bind_eq_some, Option.pure_def,
    Option.some.injEq] at h
  obtain ⟨colsData, hcd, himp⟩ := h
  subst himp
  obtain ⟨hlen, hget⟩ := mapM_opt_spec _ _ _ hcd
  rw [List.length_range] at hlen
  refine ⟨rfl, by simp [hlen], ?_⟩
  intro j hj
  have hj2 : j < colsData.length := by rw [hlen]; exact hj
  have h1 : (colsData.map (fun c => medianQ (c.filterMap id))).getD j none
      = medianQ ((colsData.getD j []).filterMap id) := by
    rw [List.getD_eq_getElem _ _ (by simpa using hj2), List.getElem_map,
      List.getD_eq_getElem _ _ hj2]
  have hg := hget j 0 [] (by simpa [List.length_range] using hj)
  rw [List.getD_eq_getElem _ _ (by simpa [List.length_range] using hj),
    List.getElem_range] at hg
  show (colsData.map (fun c => medianQ (c.filterMap id))).getD j none
      = medianQ (observedCol df j)
  rw [h1]
  congr 1
  exact mapM_getNumCell_filterMap hg

theorem addRatio_spec {df out : DF}
    (hwf : ∀ r ∈ df.rows, r.length = df.cols.length)
    (hf1 : "rooms_per_household" ∉ df.cols)
    (hf2 : "bedrooms_per_room" ∉ df.cols)
    (hf3 : "population_per_household" ∉ df.cols)
    (h : addRatioColumns df = some out) :
    ∃ tr hh tb pop,
      df.getCol "total_rooms" = some tr ∧
      df.getCol "households" = some hh ∧
      df.getCol "total_bedrooms" = some tb ∧
      df.getCol "population" = some pop ∧
      out.cols = df.cols ++
        ["rooms_per_household", "bedrooms_per_room", "population_per_household"] ∧
      out.index = df.index ∧
      out.getCol "total_rooms" = some tr ∧
      out.getCol "households" = some hh ∧
      out.getCol "total_bedrooms" = some tb ∧
      out.getCol "population" = some pop ∧
      out.getCol "rooms_per_household" = some (List.zipWith ratioDiv tr hh) ∧
      out.getCol "bedrooms_per_room" = some (List.zipWith ratioDiv tb tr) ∧
      out.getCol "population_per_household" = some (List.zipWith ratioDiv pop hh) ∧
      (∀ r ∈ out.rows, r.length = out.cols.length) ∧
      out.rows.length = df.rows.length := by
  unfold addRatioColumns at h
  simp only [Option.bind_eq_bind, Option.bind_eq_some, Option.pure_def,
    Option.some.injEq] at h
  obtain ⟨tr, htr, hh, hhh, tb, htb, tr1, htr1, pop, hpop, hh1, hhh1, hout⟩ := h
  have hlentr : tr.length = df.rows.length := getCol_length htr
  have hlenhh : hh.length = df.rows.length := getCol_length hhh
  have hv1len : (List.zipWith ratioDiv tr hh).length = df.rows.length := by
    simp [List.length_zipWith, hlentr, hlenhh]
  have hcols1 := (addCol_fresh_cols df "rooms_per_household"
    (List.zipWith ratioDiv tr hh) hf1).1
  have hidx1 := (addCol_fresh_cols df "rooms_per_household"
    (List.zipWith ratioDiv tr hh) hf1).2.1
  obtain ⟨hwf1, hrows1⟩ := addCol_fresh_wf hf1 hwf hv1len
  have hgetTb : (df.addCol "rooms_per_household"
      (List.zipWith ratioDiv tr hh)).getCol "total_bedrooms" =
      df.getCol "total_bedrooms" :=
    getCol_addCol_other hf1 (by decide) hwf hv1len
  have hgetTr1 : (df.addCol "rooms_per_household"
      (List.zipWith ratioDiv tr hh)).getCol "total_rooms" =
      df.getCol "total_rooms" :=
    getCol_addCol_other hf1 (by decide) hwf hv1len
  rw [hgetTb] at htb
  rw [hgetTr1, htr] at htr1
  have htr1e : tr = tr1 := Option.some.inj htr1
  subst htr1e
  have hlentb : tb.length = df.rows.length := getCol_length htb
  have hv2len : (List.zipWith ratioDiv tb tr).length =
      (df.addCol "rooms_per_household" (List.zipWith ratioDiv tr hh)).rows.length := by
    rw [hrows1]
    simp [List.length_zipWith, hlentb, hlentr]
  have hf2a : "bedrooms_per_room" ∉ (df.addCol "rooms_per_household"
      (List.zipWith ratioDiv tr hh)).cols := by
    rw [hcols1]
    simp only [List.mem_append, List.mem_singleton]
    rintro (hm | hm)
    · exact hf2 hm
    · exact absurd hm (by decide)
  have hcols2 := (addCol_fresh_cols _ "bedrooms_per_room"
    (List.zipWith ratioDiv tb tr) hf2a).1
  have hidx2 := (addCol_fresh_cols _ "bedrooms_per_room"
    (List.zipWith ratioDiv tb tr) hf2a).2.1
  obtain ⟨hwf2, hrows2⟩ := addCol_fresh_wf hf2a hwf1 hv2len
  have hgetPop : ((df.addCol "rooms_per_household" (List.zipWith ratioDiv tr hh)).addCol
      "bedrooms_per_room" (List.zipWith ratioDiv tb tr)).getCol "population" =
      df.getCol "population" := by
    rw [getCol_addCol_other hf2a (by decide) hwf1 hv2len,
      getCol_addCol_other hf1 (by decide) hwf hv1len]
  have hgetHh1 : ((df.addCol "rooms_per_household" (List.zipWith ratioDiv tr hh)).addCol
      "bedrooms_per_room" (List.zipWith ratioDiv tb tr)).getCol "households" =
      df.getCol "households" := by
    rw [getCol_addCol_other hf2a (by decide) hwf1 hv2len,
      getCol_addCol_other hf1 (by decide) hwf hv1len]
  rw [hgetPop] at hpop
  rw [hgetHh1, hhh] at hhh1
  have hhh1e : hh = hh1 := Option.some.inj hhh1
  subst hhh1e
  have hlenpop : pop.length = df.rows.length := getCol_length hpop
  have hv3len : (List.zipWith ratioDiv pop hh).length =
      ((df.addCol "rooms_per_household" (List.zipWith ratioDiv tr hh)).addCol
        "bedrooms_per_room" (List.zipWith ratioDiv tb tr)).rows.length := by
    rw [hrows2, hrows1]
    simp [List.length_zipWith, hlenpop, hlenhh]
  have hf3a : "population_per_household" ∉
      ((df.addCol "rooms_per_household" (List.zipWith ratioDiv tr hh)).addCol
        "bedrooms_per_room" (List.zipWith ratioDiv tb tr)).cols := by
    rw [hcols2, hcols1]
    simp only [List.mem_append, List.mem_singleton]
    rintro ((hm | hm) | hm)
    · exact hf3 hm
    · exact absurd hm (by decide)
    · exact absurd hm (by decide)
  have hcols3 := (addCol_fresh_cols _ "population_per_household"
    (List.zipWith ratioDiv pop hh) hf3a).1
  have hidx3 := (addCol_fresh_cols _ "population_per_household"
    (List.zipWith ratioDiv pop hh) hf3a).2.1
  obtain ⟨hwf3, hrows3⟩ := addCol_fresh_wf hf3a hwf2 hv3len
  subst hout
  refine ⟨tr, hh, tb, pop, htr, hhh, htb, hpop, ?_, ?_, ?_, ?_, ?_, ?_, ?_, ?_, ?_,
    hwf3, ?_⟩
  · rw [hcols3, hcols2, hcols1]
    simp
  · rw [hidx3, hidx2, hidx1]
  · rw [getCol_addCol_other hf3a (by decide) hwf2 hv3len,
      getCol_addCol_other hf2a (by decide) hwf1 hv2len,
      getCol_addCol_other hf1 (by decide) hwf hv1len]
    exact htr
  · rw [getCol_addCol_other hf3a (by decide) hwf2 hv3len,
      getCol_addCol_other hf2a (by decide) hwf1 hv2len,
      getCol_addCol_other hf1 (by decide) hwf hv1len]
    exact hhh
  · rw [getCol_addCol_other hf3a (by decide) hwf2 hv3len,
      getCol_addCol_other hf2a (by decide) hwf1 hv2len,
      getCol_addCol_other hf1 (by decide) hwf hv1len]
    exact htb
  · rw [getCol_addCol_other hf3a (by decide) hwf2 hv3len,
      getCol_addCol_other hf2a (by decide) hwf1 hv2len,
      getCol_addCol_other hf1 (by decide) hwf hv1len]
    exact hpop
  · rw [getCol_addCol_other hf3a (by decide) hwf2 hv3len,
      getCol_addCol_other hf2a (by decide) hwf1 hv2len]
    exact getCol_addCol_fresh hf1 hwf hv1len
  · rw [getCol_addCol_other hf3a (by decide) hwf2 hv3len]
    exact getCol_addCol_fresh hf2a hwf1 hv2len
  · exact getCol_addCol_fresh hf3a hwf2 hv3len
  · rw [hrows3, hrows2, hrows1]

theorem getDummies_inv {colName : String} {cells : List Val} {index : List Int}
    {d : DF} (h : getDummies colName cells index = some d) :
    ∃ vals, catOptStrs cells = some vals ∧
      d.cols = ((sortedCats vals).drop 1).map (fun c => colName ++ "_" ++ c) ∧
      d.index = index ∧
      d.rows.length = cells.length ∧
      (∀ r ∈ d.rows, r.length = d.cols.length) := by
  unfold getDummies at h
  simp only [Option.bind_eq_bind, Option.bind_eq_some, Option.pure_def,
    Option.some.injEq] at h
  obtain ⟨vals, hv, hd⟩ := h
  subst hd
  obtain ⟨hlen, _⟩ := mapM_opt_spec _ _ _ hv
  refine ⟨vals, hv, rfl, rfl, by simp [hlen], ?_⟩
  intro r hr
  simp only [List.mem_map] at hr
  obtain ⟨v, _, hvr⟩ := hr
  rw [← hvr]
  simp

theorem fe_train_inv {housing X : DF} {y : List Val} {imp : Imputer}
    (h : feature_engineering_traindataset housing = some (X, y, imp)) :
    ∃ h1 hnum Xd htr htr2 cat dums,
      housing.getCol "median_house_value" = some y ∧
      housing.dropCol "median_house_value" = some h1 ∧
      h1.dropCol "ocean_proximity" = some hnum ∧
      fitImputer hnum = some imp ∧
      transformImputer imp hnum = some Xd ∧
      mkDF Xd hnum.cols h1.index = some htr ∧
      addRatioColumns htr = some htr2 ∧
      h1.getCol "ocean_proximity" = some cat ∧
      getDummies "ocean_proximity" cat h1.index = some dums ∧
      joinDF htr2 dums = some X := by
  unfold feature_engineering_traindataset at h
  simp only [Option.bind_eq_bind, Option.bind_eq_some, Option.pure_def,
    Option.some.injEq, Prod.mk.injEq] at h
  obtain ⟨y0, hy0, h1, hh1, hnum, hhnum, imp0, himp0, Xd, hXd, htr, hhtr,
    htr2, hhtr2, cat, hcat, dums, hdums, X0, hX0, hXeq, hyeq, himpeq⟩ := h
  subst hXeq
  subst hyeq
  subst himpeq
  exact ⟨h1, hnum, Xd, htr, htr2, cat, dums, hy0, hh1, hhnum, himp0, hXd,
    hhtr, hhtr2, hcat, hdums, hX0⟩

theorem fe_test_inv {housing_test : DF} {imp : Imputer} {X : DF} {y : List Val}
    {imp2 : Imputer}
    (h : feature_engineering_testdataset housing_test imp = some (X, y, imp2)) :
    imp2 = imp ∧
    ∃ X1 Xnum Xp Xprep Xprep2 cat dums,
      housing_test.getCol "median_house_value" = some y ∧
      housing_test.dropCol "median_house_value" = some X1 ∧
      X1.dropCol "ocean_proximity" = some Xnum ∧
      transformImputer imp Xnum = some Xp ∧
      mkDF Xp Xnum.cols X1.index = some Xprep ∧
      addRatioColumns Xprep = some Xprep2 ∧
      X1.getCol "ocean_proximity" = some cat ∧
      getDummies "ocean_proximity" cat X1.index = some dums ∧
      joinDF Xprep2 dums = some X := by
  unfold feature_engineering_testdataset at h
  simp only [Option.bind_eq_bind, Option.bind_eq_some, Option.pure_def,
    Option.some.injEq, Prod.mk.injEq] at h
  obtain ⟨y0, hy0, X1, hX1, Xnum, hXnum, Xp, hXp, Xprep, hXprep,
    Xprep2, hXprep2, cat, hcat, dums, hdums, X0, hX0, hXeq, hyeq, himpeq⟩ := h
  subst hXeq
  subst hyeq
  subst himpeq
  exact ⟨rfl, X1, Xnum, Xp, Xprep, Xprep2, cat, dums, hy0, hX1, hXnum, hXp,
    hXprep, hXprep2, hcat, hdums, hX0⟩

theorem fe_train_cols {housing X : DF} {y : List Val} {imp : Imputer}
    (hf1 : "rooms_per_household" ∉ housing.cols)
    (hf2 : "bedrooms_per_room" ∉ housing.cols)
    (hf3 : "population_per_household" ∉ housing.cols)
    (h : feature_engineering_traindataset housing = some (X, y, imp)) :
    ∃ cats, partitionCats housing = some cats ∧
      X.cols = ((housing.cols.filter (fun s => ¬ s == "median_house_value")).filter
          (fun s => ¬ s == "ocean_proximity")) ++
        ["rooms_per_household", "bedrooms_per_room", "population_per_household"] ++
        (cats.drop 1).map (fun c => "ocean_proximity" ++ "_" ++ c) := by
  obtain ⟨h1, hnum, Xd, htr, htr2, cat, dums, hy0, hh1, hhnum, hfit, hXd,
    hhtr, hhtr2, hcat, hdums, hX0⟩ := fe_train_inv h
  obtain ⟨hc1, hi1, hl1, hwf1, hsub1⟩ := dropCol_inv hh1
  obtain ⟨hc2, hi2, hl2, hwf2, hsub2⟩ := dropCol_inv hhnum
  obtain ⟨htrc, htri, htrr, htrwf, htrl⟩ := mkDF_inv hhtr
  have hwftr : ∀ r ∈ htr.rows, r.length = htr.cols.length := by
    rw [htrc]
    exact htrwf
  have hfr1 : "rooms_per_household" ∉ htr.cols := by
    rw [htrc]
    exact fun hm => hf1 (hsub1 (hsub2 hm))
  have hfr2 : "bedrooms_per_room" ∉ htr.cols := by
    rw [htrc]
    exact fun hm => hf2 (hsub1 (hsub2 hm))
  have hfr3 : "population_per_household" ∉ htr.cols := by
    rw [htrc]
    exact fun hm => hf3 (hsub1 (hsub2 hm))
  obtain ⟨tr, hh, tb, pop, _, _, _, _, hcols5, _, _, _, _, _, _, _, _, _, _⟩ :=
    addRatio_spec hwftr hfr1 hfr2 hfr3 hhtr2
  obtain ⟨vals, hvals, hdcols, _, _, _⟩ := getDummies_inv hdums
  obtain ⟨hXC, _, _, _, _⟩ := joinDF_inv hX0
  refine ⟨sortedCats vals, ?_, ?_⟩
  · unfold partitionCats
    rw [hh1]
    show (h1.getCol "ocean_proximity").bind
      (fun cat => (catOptStrs cat).bind (fun vals => some (sortedCats vals))) =
      some (sortedCats vals)
    rw [hcat]
    show (catOptStrs cat).bind (fun vals => some (sortedCats vals)) =
      some (sortedCats vals)
    rw [hvals]
    rfl
  · rw [hXC, hcols5, htrc, hc2, hc1, hdcols]

theorem fe_test_cols {housing_test : DF} {imp : Imputer} {X : DF} {y : List Val}
    {imp2 : Imputer}
    (hf1 : "rooms_per_household" ∉ housing_test.cols)
    (hf2 : "bedrooms_per_room" ∉ housing_test.cols)
    (hf3 : "population_per_household" ∉ housing_test.cols)
    (h : feature_engineering_testdataset housing_test imp = some (X, y, imp2)) :
    ∃ cats, partitionCats housing_test = some cats ∧
      X.cols = ((housing_test.cols.filter (fun s => ¬ s == "median_house_value")).filter
          (fun s => ¬ s == "ocean_proximity")) ++
        ["rooms_per_household", "bedrooms_per_room", "population_per_household"] ++
        (cats.drop 1).map (fun c => "ocean_proximity" ++ "_" ++ c) := by
  obtain ⟨_, X1, Xnum, Xp, Xprep, Xprep2, cat, dums, hy0, hX1, hXnum, hXp,
    hXprep, hXprep2, hcat, hdums, hX0⟩ := fe_test_inv h
  obtain ⟨hc1, hi1, hl1, hwf1, hsub1⟩ := dropCol_inv hX1
  obtain ⟨hc2, hi2, hl2, hwf2, hsub2⟩ := dropCol_inv hXnum
  obtain ⟨htrc, htri, htrr, htrwf, htrl⟩ := mkDF_inv hXprep
  have hwftr : ∀ r ∈ Xprep.rows, r.length = Xprep.cols.length := by
    rw [htrc]
    exact htrwf
  have hfr1 : "rooms_per_household" ∉ Xprep.cols := by
    rw [htrc]
    exact fun hm => hf1 (hsub1 (hsub2 hm))
  have hfr2 : "bedrooms_per_room" ∉ Xprep.cols := by
    rw [htrc]
    exact fun hm => hf2 (hsub1 (hsub2 hm))
  have hfr3 : "population_per_household" ∉ Xprep.cols := by
    rw [htrc]
    exact fun hm => hf3 (hsub1 (hsub2 hm))
  obtain ⟨tr, hh, tb, pop, _, _, _, _, hcols5, _, _, _, _, _, _, _, _, _, _⟩ :=
    addRatio_spec hwftr hfr1 hfr2 hfr3 hXprep2
  obtain ⟨vals, hvals, hdcols, _, _, _⟩ := getDummies_inv hdums
  obtain ⟨hXC, _, _, _, _⟩ := joinDF_inv hX0
  refine ⟨sortedCats vals, ?_, ?_⟩
  · unfold partitionCats
    rw [hX1]
    show (X1.getCol "ocean_proximity").bind
      (fun cat => (catOptStrs cat).bind (fun vals => some (sortedCats vals))) =
      some (sortedCats vals)
    rw [hcat]
    show (catOptStrs cat).bind (fun vals => some (sortedCats vals)) =
      some (sortedCats vals)
    rw [hvals]
    rfl
  · rw [hXC, hcols5, htrc, hc2, hc1, hdcols]

theorem greedyAlloc_length : ∀ (cs : List Nat) (k : Nat),
    (greedyAlloc cs k).length = cs.length := by
  intro cs
  induction cs with
  | nil => intro k; rfl
  | cons c cs ih => intro k; simp [greedyAlloc, ih]

theorem greedyAlloc_le : ∀ (cs : List Nat) (k : Nat),
    List.Forall₂ (· ≤ ·) (greedyAlloc cs k) cs := by
  intro cs
  induction cs with
  | nil => intro k; exact List.Forall₂.nil
  | cons c cs ih =>
      intro k
      exact List.Forall₂.cons (Nat.min_le_left c k) (ih (k - min c k))

theorem greedyAlloc_sum : ∀ (cs : List Nat) (k : Nat),
    (greedyAlloc cs k).sum = min k cs.sum := by
  intro cs
  induction cs with
  | nil => intro k; simp [greedyAlloc]
  | cons c cs ih =>
      intro k
      simp only [greedyAlloc, List.sum_cons, ih (k - min c k)]
      omega

theorem rngOK_seeded (seed : Nat) : RngOK (seededRng seed) where
  allocTrain_length := fun counts k => greedyAlloc_length counts k
  allocTrain_le := fun counts k => greedyAlloc_le counts k
  allocTrain_sum := fun counts k hk => by
    rw [show (seededRng seed).allocTrain counts k = greedyAlloc counts k from rfl,
      greedyAlloc_sum]
    omega
  allocTest_length := fun counts k => greedyAlloc_length counts k
  allocTest_le := fun counts k => greedyAlloc_le counts k
  allocTest_sum := fun counts k hk => by
    rw [show (seededRng seed).allocTest counts k = greedyAlloc counts k from rfl,
      greedyAlloc_sum]
    omega
  permClass_perm := fun i s => by
    rw [show (seededRng seed).permClass i s = (List.range s).rotate (seed + i) from rfl]
    exact List.rotate_perm _ _
  permFinal_perm := fun i s => by
    rw [show (seededRng seed).permFinal i s = (List.range s).rotate (seed + i) from rfl]
    exact List.rotate_perm _ _

theorem applyPerm_perm {p l : List Nat} (h : p.Perm (List.range l.length)) :
    (applyPerm p l).Perm l := by
  have h2 := h.map (fun k => l.getD k 0)
  rwa [mapGetDRange 0 l] at h2

theorem filter_range_count (y : List Val) (c : Val) :
    ((List.range y.length).filter (fun j => y.getD j Val.na == c)).length =
      List.count c y := by
  rw [← List.countP_eq_length_filter]
  conv_rhs => rw [← mapGetDRange Val.na y]
  rw [List.count_eq_countP, List.countP_map]
  rfl

theorem forall₂_le_sum_le : ∀ {xs ys : List Nat},
    List.Forall₂ (· ≤ ·) xs ys → xs.sum ≤ ys.sum := by
  intro xs ys h
  induction h with
  | nil => exact Nat.le_refl 0
  | cons hab htl ih =>
      simp only [List.sum_cons]
      omega

theorem forall₂_le_sum_eq : ∀ {xs ys : List Nat},
    List.Forall₂ (· ≤ ·) xs ys → xs.sum = ys.sum → xs = ys := by
  intro xs ys h
  induction h with
  | nil => intro _; rfl
  | @cons a b l₁ l₂ hab htl ih =>
      intro hsum
      simp only [List.sum_cons] at hsum
      have hle := forall₂_le_sum_le htl
      have h1 : l₁ = l₂ := ih (by omega)
      have hs : l₁.sum = l₂.sum := by rw [h1]
      have hab2 : a = b := by omega
      rw [h1, hab2]

theorem sum_zipWith_sub : ∀ {xs ys : List Nat},
    List.Forall₂ (· ≤ ·) xs ys →
    (List.zipWith (fun a b => a - b) ys xs).sum = ys.sum - xs.sum := by
  intro xs ys h
  induction h with
  | nil => rfl
  | cons hab htl ih =>
      simp only [List.zipWith_cons_cons, List.sum_cons, ih]
      have hle := forall₂_le_sum_le htl
      omega

theorem zip_add_le : ∀ {ns ts cs : List Nat},
    List.Forall₂ (· ≤ ·) ns cs →
    List.Forall₂ (· ≤ ·) ts (List.zipWith (fun a b => a - b) cs ns) →
    List.Forall₂ (· ≤ ·) (List.zipWith (· + ·) ns ts) cs := by
  intro ns ts cs h1
  induction h1 generalizing ts with
  | nil =>
      intro _
      simp only [List.zipWith_nil_left]
      exact List.Forall₂.nil
  | cons hab htl ih =>
      intro h2
      simp only [List.zipWith_cons_cons] at h2
      cases h2 with
      | cons hb h2tl =>
          simp only [List.zipWith_cons_cons]
          exact List.Forall₂.cons (by omega) (ih h2tl)

theorem sum_zipWith_add : ∀ {ns ts : List Nat}, ns.length = ts.length →
    (List.zipWith (· + ·) ns ts).sum = ns.sum + ts.sum := by
  intro ns
  induction ns with
  | nil =>
      intro ts h
      cases ts
      · rfl
      · cases h
  | cons a ns ih =>
      intro ts h
      cases ts with
      | nil => cases h
      | cons b ts =>
          simp only [List.zipWith_cons_cons, List.sum_cons, ih (Nat.succ.inj h)]
          omega

theorem perm_middle_swap (a b c d : List Nat) :
    ((a ++ b) ++ (c ++ d)).Perm ((a ++ c) ++ (b ++ d)) := by
  rw [List.append_assoc, List.append_assoc]
  refine List.Perm.append_left a ?_
  rw [← List.append_assoc, ← List.append_assoc]
  exact List.perm_append_comm.append_right d

theorem flatten_take_drop : ∀ (w : List (List Nat × Nat × Nat)),
    (∀ x ∈ w, x.2.1 + x.2.2 = x.1.length) →
    ((w.map (fun x => x.1.take x.2.1)).flatten ++
      (w.map (fun x => (x.1.drop x.2.1).take x.2.2)).flatten).Perm
      (w.map (fun x => x.1)).flatten := by
  intro w
  induction w with
  | nil => intro _; rfl
  | cons x w ih =>
      intro hx
      have hhd : x.2.1 + x.2.2 = x.1.length := hx x (List.mem_cons_self _ _)
      have htl := ih (fun z hz => hx z (List.mem_cons_of_mem _ hz))
      simp only [List.map_cons, List.flatten_cons]
      have step1 : ((x.1.take x.2.1 ++ (w.map (fun x => x.1.take x.2.1)).flatten) ++
            ((x.1.drop x.2.1).take x.2.2 ++
              (w.map (fun x => (x.1.drop x.2.1).take x.2.2)).flatten)).Perm
          ((x.1.take x.2.1 ++ (x.1.drop x.2.1).take x.2.2) ++
            ((w.map (fun x => x.1.take x.2.1)).flatten ++
              (w.map (fun x => (x.1.drop x.2.1).take x.2.2)).flatten)) :=
        perm_middle_swap _ _ _ _
      have step2 : x.1.take x.2.1 ++ (x.1.drop x.2.1).take x.2.2 = x.1 := by
        rw [← List.take_add, hhd, List.take_length]
      refine step1.trans ?_
      rw [step2]
      exact List.Perm.append_left _ htl

theorem flatten_perm_forall₂ : ∀ {as bs : List (List Nat)},
    List.Forall₂ (fun a b => a.Perm b) as bs → as.flatten.Perm bs.flatten := by
  intro as bs h
  induction h with
  | nil => rfl
  | cons hab htl ih =>
      simp only [List.flatten_cons]
      exact hab.append ih

theorem count_filter_ite {α : Type} [DecidableEq α] (p : α → Bool) (l : List α)
    (a : α) :
    List.count a (l.filter p) = if p a then List.count a l else 0 := by
  by_cases hp : p a
  · rw [if_pos hp]
    exact List.count_filter hp
  · rw [if_neg hp]
    rw [List.count_eq_zero]
    intro hm
    exact hp (List.of_mem_filter hm)

theorem sum_map_beq {α : Type} [DecidableEq α] (v : α) :
    ∀ (l : List α), (l.map (fun c => if v == c then 1 else 0)).sum =
      List.count v l := by
  intro l
  induction l with
  | nil => rfl
  | cons c l ih =>
      simp only [List.map_cons, List.sum_cons, ih, List.count_cons]
      by_cases h : v = c
      · subst h
        simp [Nat.add_comm]
      · have h2 : ¬ c = v := fun e => h e.symm
        simp [h, h2]

theorem flatten_classIdx (y : List Val) :
    ((y.dedup).map (fun c =>
      (List.range y.length).filter (fun j => y.getD j Val.na == c))).flatten.Perm
      (List.range y.length) := by
  rw [List.perm_iff_count]
  intro a
  rw [List.count_flatten, List.map_map]
  by_cases ha : a < y.length
  · have hmem : y.getD a Val.na ∈ y := by
      rw [List.getD_eq_getElem _ _ ha]
      exact List.getElem_mem _
    have hcr : List.count a (List.range y.length) = 1 :=
      List.count_eq_one_of_mem (List.nodup_range _) (List.mem_range.mpr ha)
    rw [hcr]
    have hterm : ∀ c : Val,
        (List.count a ∘ fun c =>
          (List.range y.length).filter (fun j => y.getD j Val.na == c)) c =
        (fun c => if y.getD a Val.na == c then 1 else 0) c := by
      intro c
      simp only [Function.comp]
      rw [count_filter_ite, hcr]
    rw [List.map_congr_left (fun c _ => hterm c), sum_map_beq,
      List.count_dedup, if_pos hmem]
  · have hcr : List.count a (List.range y.length) = 0 := by
      rw [List.count_eq_zero]
      intro hm
      exact ha (List.mem_range.mp hm)
    rw [hcr]
    have hterm : ∀ c : Val,
        (List.count a ∘ fun c =>
          (List.range y.length).filter (fun j => y.getD j Val.na == c)) c =
        (fun _ => (0 : Nat)) c := by
      intro c
      simp only [Function.comp]
      rw [count_filter_ite, hcr]
      simp
    rw [List.map_congr_left (fun c _ => hterm c)]
    simp

theorem enumFrom_map_forall₂ : ∀ (l : List (List Nat)) (k : Nat)
    (f : Nat → Nat → List Nat), (∀ i s, (f i s).Perm (List.range s)) →
    List.Forall₂ (fun a b => a.Perm b)
      ((l.enumFrom k).map (fun q => applyPerm (f q.1 q.2.length) q.2)) l := by
  intro l
  induction l with
  | nil => intro k f hf; exact List.Forall₂.nil
  | cons a l ih =>
      intro k f hf
      simp only [List.enumFrom_cons, List.map_cons]
      exact List.Forall₂.cons (applyPerm_perm (hf k a.length)) (ih (k + 1) f hf)

theorem enumFrom_map_snd {α β : Type} (F : α → β) :
    ∀ (l : List α) (k : Nat), ((l.enumFrom k).map (fun q => F q.2)) = l.map F := by
  intro l
  induction l with
  | nil => intro k; rfl
  | cons a l ih =>
      intro k
      simp only [List.enumFrom_cons, List.map_cons, ih (k + 1)]

theorem mem_zip_trip : ∀ {lis : List (List Nat)} {ns ts cs : List Nat},
    lis.map List.length = cs → List.zipWith (· + ·) ns ts = cs →
    ns.length = cs.length → ts.length = cs.length →
    ∀ x ∈ lis.zip (ns.zip ts), x.2.1 + x.2.2 = x.1.length := by
  intro lis
  induction lis with
  | nil => intro ns ts cs _ _ _ _ x hx; cases hx
  | cons l lis ih =>
      intro ns ts cs hmap hzip hns hts x hx
      cases cs with
      | nil => cases hmap
      | cons c cs =>
          cases ns with
          | nil => cases hns
          | cons a ns =>
              cases ts with
              | nil => cases hts
              | cons b ts =>
                  simp only [List.map_cons, List.cons.injEq] at hmap
                  simp only [List.zipWith_cons_cons, List.cons.injEq] at hzip
                  simp only [List.zip_cons_cons, List.mem_cons] at hx
                  rcases hx with hx | hx
                  · rw [hx]
                    exact hzip.1.trans hmap.1.symm
                  · exact ih hmap.2 hzip.2 (Nat.succ.inj hns) (Nat.succ.inj hts) x hx

theorem classIdx_length_counts (y : List Val) :
    (classIdxOf y).map List.length = countsOf y := by
  unfold classIdxOf countsOf
  rw [List.map_map]
  exact List.map_congr_left (fun c _ => filter_range_count y c)

theorem permuted_length_eq {rng : SplitRNG} (hok : RngOK rng) (y : List Val) :
    (permutedOf rng y).map List.length = countsOf y := by
  unfold permutedOf
  rw [List.map_map]
  have h1 : ∀ q ∈ (classIdxOf y).enum,
      (List.length ∘ fun q => applyPerm (rng.permClass q.1 q.2.length) q.2) q =
      (fun q : Nat × List Nat => q.2.length) q := by
    intro q _
    simp only [Function.comp, applyPerm, List.length_map]
    rw [(hok.permClass_perm q.1 q.2.length).length_eq, List.length_range]
  rw [List.map_congr_left h1]
  rw [show (List.enum (classIdxOf y)) = (classIdxOf y).enumFrom 0 from rfl]
  rw [enumFrom_map_snd List.length]
  exact classIdx_length_counts y

theorem counts_sum (y : List Val) : (countsOf y).sum = y.length :=
  List.sum_map_count_dedup_eq_length y

theorem core_perm {rng : SplitRNG} (hok : RngOK rng) (y : List Val)
    {nTrain nTest : Nat} (hNT : nTrain + nTest = y.length) :
    (trainPreOf rng y nTrain nTest ++ testPreOf rng y nTrain nTest).Perm
      (List.range y.length) := by
  have hcsum : (countsOf y).sum = y.length := counts_sum y
  have hle1 := hok.allocTrain_le (countsOf y) nTrain
  have hsum1 : (rng.allocTrain (countsOf y) nTrain).sum = nTrain :=
    hok.allocTrain_sum _ _ (by omega)
  have hremsum : (List.zipWith (fun a b => a - b) (countsOf y)
      (rng.allocTrain (countsOf y) nTrain)).sum = y.length - nTrain := by
    rw [sum_zipWith_sub hle1, hsum1, hcsum]
  have hle2 := hok.allocTest_le (List.zipWith (fun a b => a - b) (countsOf y)
    (rng.allocTrain (countsOf y) nTrain)) nTest
  have hsum2 : (rng.allocTest (List.zipWith (fun a b => a - b) (countsOf y)
      (rng.allocTrain (countsOf y) nTrain)) nTest).sum = nTest :=
    hok.allocTest_sum _ _ (by rw [hremsum]; omega)
  have hlen1 : (rng.allocTrain (countsOf y) nTrain).length = (countsOf y).length :=
    hok.allocTrain_length _ _
  have hlen2 : (rng.allocTest (List.zipWith (fun a b => a - b) (countsOf y)
      (rng.allocTrain (countsOf y) nTrain)) nTest).length = (countsOf y).length := by
    rw [hok.allocTest_length]
    simp [List.length_zipWith, hlen1]
  have hadd : List.zipWith (· + ·) (rng.allocTrain (countsOf y) nTrain)
      (rng.allocTest (List.zipWith (fun a b => a - b) (countsOf y)
        (rng.allocTrain (countsOf y) nTrain)) nTest) = countsOf y := by
    apply forall₂_le_sum_eq (zip_add_le hle1 hle2)
    rw [sum_zipWith_add (by rw [hlen1, hlen2]), hsum1, hsum2, hcsum, hNT]
  have hpermlen : (permutedOf rng y).map List.length = countsOf y :=
    permuted_length_eq hok y
  have hforall : List.Forall₂ (fun a b => a.Perm b) (permutedOf rng y)
      (classIdxOf y) :=
    enumFrom_map_forall₂ (classIdxOf y) 0 rng.permClass hok.permClass_perm
  have hx : ∀ x ∈ withCountsOf rng y nTrain nTest, x.2.1 + x.2.2 = x.1.length :=
    mem_zip_trip hpermlen hadd hlen1 hlen2
  have hplen : (permutedOf rng y).length = (countsOf y).length := by
    rw [← hpermlen, List.length_map]
  unfold trainPreOf testPreOf
  refine (flatten_take_drop _ hx).trans ?_
  have hfst : (withCountsOf rng y nTrain nTest).map (fun x => x.1) =
      permutedOf rng y := by
    unfold withCountsOf
    exact List.map_fst_zip _ _ (by simp [List.length_zip, hlen1, hlen2, hplen])
  rw [hfst]
  exact (flatten_perm_forall₂ hforall).trans (flatten_classIdx y)

theorem iterIndices_perm {rng : SplitRNG} (hok : RngOK rng) {y : List Val}
    {trainIdx testIdx : List Nat}
    (h : iterIndices rng y = some (trainIdx, testIdx)) :
    (trainIdx ++ testIdx).Perm (List.range y.length) := by
  simp only [iterIndices] at h
  split at h
  · exact absurd h (by simp)
  · rw [Option.some.injEq, Prod.mk.injEq] at h
    obtain ⟨h1, h2⟩ := h
    subst h1
    subst h2
    have hA := applyPerm_perm (hok.permFinal_perm 0
      (trainPreOf rng y (y.length - (y.length + 4) / 5) ((y.length + 4) / 5)).length)
    have hB := applyPerm_perm (hok.permFinal_perm 1
      (testPreOf rng y (y.length - (y.length + 4) / 5) ((y.length + 4) / 5)).length)
    exact (hA.append hB).trans (core_perm hok y (by omega))

theorem filter_range_beq : ∀ {n v : Nat}, v < n →
    (List.range n).filter (fun p => p == v) = [v] := by
  intro n
  induction n with
  | zero => intro v hv; omega
  | succ n ih =>
    intro v hv
    rw [List.range_succ, List.filter_append]
    by_cases h : v < n
    · have hne : (n == v) = false := beq_eq_false_iff_ne.mpr (by omega)
      rw [ih h, List.filter_singleton, hne]
      rfl
    · have hveq : v = n := by omega
      subst hveq
      have h0 : (List.range v).filter (fun p => p == v) = [] :=
        List.filter_eq_nil_iff.mpr (fun p hp => by
          rw [List.mem_range] at hp
          simp only [beq_iff_eq]
          omega)
      rw [h0, List.filter_singleton, beq_self_eq_true v]
      rfl

theorem positionsOf_default {n v : Nat} (hv : v < n) :
    positionsOf ((List.range n).map Int.ofNat) (Int.ofNat v) = [v] := by
  unfold positionsOf
  rw [List.length_map, List.length_range]
  have hcong : ∀ p ∈ List.range n,
      (((List.range n).map Int.ofNat).getD p 0 == Int.ofNat v) = (p == v) := by
    intro p hp
    rw [List.mem_range] at hp
    have hlt : p < ((List.range n).map Int.ofNat).length := by
      rw [List.length_map, List.length_range]
      exact hp
    rw [List.getD_eq_getElem _ _ hlt]
    simp only [List.getElem_map, List.getElem_range]
    cases hb : (p == v) with
    | true =>
      rw [beq_iff_eq] at hb
      subst hb
      exact beq_self_eq_true _
    | false =>
      rw [beq_eq_false_iff_ne] at hb
      exact beq_eq_false_iff_ne.mpr (fun hc => hb (Int.ofNat.inj hc))
  rw [List.filter_congr hcong]
  exact filter_range_beq hv

theorem flatMap_positions_default {α : Type} {n : Nat} (g : Int → Nat → α) :
    ∀ (idxs : List Nat), (∀ v ∈ idxs, v < n) →
    (idxs.map Int.ofNat).flatMap
      (fun l => (positionsOf ((List.range n).map Int.ofNat) l).map (g l)) =
    idxs.map (fun v => g (Int.ofNat v) v) := by
  intro idxs
  induction idxs with
  | nil => intro _; rfl
  | cons v idxs ih =>
    intro hall
    rw [List.map_cons, List.flatMap_cons,
      positionsOf_default (hall v (List.mem_cons_self v idxs)),
      ih (fun w hw => hall w (List.mem_cons_of_mem v hw))]
    rfl

theorem loc_default {df : DF} (hidx : df.index = (List.range df.nRows).map Int.ofNat)
    (idxs : List Nat) (hall : ∀ v ∈ idxs, v < df.nRows) :
    df.loc (idxs.map Int.ofNat) =
      some { cols := df.cols
             index := idxs.map Int.ofNat
             rows := idxs.map (fun v => df.rows.getD v []) } := by
  unfold DF.loc
  rw [if_pos]
  · have hindex : (idxs.map Int.ofNat).flatMap
        (fun l => (positionsOf df.index l).map (fun _ => l)) =
        idxs.map (fun v => Int.ofNat v) := by
      rw [hidx]
      exact flatMap_positions_default (fun l _ => l) idxs hall
    have hrows : (idxs.map Int.ofNat).flatMap
        (fun l => (positionsOf df.index l).map (fun p => df.rows.getD p [])) =
        idxs.map (fun v => df.rows.getD v []) := by
      rw [hidx]
      exact flatMap_positions_default (fun _ p => df.rows.getD p []) idxs hall
    rw [hindex, hrows]
  · rw [List.all_eq_true]
    intro l hl
    rw [List.mem_map] at hl
    obtain ⟨v, hv, hlv⟩ := hl
    subst hlv
    rw [decide_eq_true_eq, hidx, List.mem_map]
    exact ⟨v, List.mem_range.mpr (hall v hv), rfl⟩

theorem startified_split_inv {rng : SplitRNG} {housing t1 t2 : DF}
    (h : startified_split rng housing = some (t1, t2)) :
    ∃ y trainIdx testIdx,
      housing.getCol "income_cat" = some y ∧
      iterIndices rng y = some (trainIdx, testIdx) ∧
      housing.loc (trainIdx.map Int.ofNat) = some t1 ∧
      housing.loc (testIdx.map Int.ofNat) = some t2 := by
  simp only [startified_split, Option.bind_eq_bind, Option.bind_eq_some] at h
  obtain ⟨y, hy, x, hx, hrest⟩ := h
  obtain ⟨trainIdx, testIdx⟩ := x
  simp only [Option.bind_eq_some, Option.pure_def, Option.some.injEq,
    Prod.mk.injEq] at hrest
  obtain ⟨a, ha, b, hb, h1, h2⟩ := hrest
  subst h1
  subst h2
  exact ⟨y, trainIdx, testIdx, hy, hx, ha, hb⟩

end Lemmas

/-- C2, counterexample: a loaded row whose median_income is exactly
the boundary value 0 receives no label at all (NaN), because pd.cut
leaves the left edge of the lowest right-closed interval out; so not
every row receives exactly one of the 5 labels, and the boundary 0 is
not routed to any bin. -/
theorem C2_counterexample :
    (binning incomeZeroDF).bind (fun h => h.getCol "income_cat") = some [Val.na] ∧
    (∀ l ∈ [Val.num 1, Val.num 2, Val.num 3, Val.num 4, Val.num 5], Val.na ≠ l) := by
  refine ⟨by decide, by decide⟩

/-- C2, amended: every row whose median_income is a finite number
strictly greater than 0 receives exactly one of the 5 labels,
determined solely by the income against the boundaries 1.5, 3, 4.5, 6
with a boundary income routed to the lower bin; rows at or below 0 (or
with missing income) receive no label. -/
theorem C2_thm (housing hb : DF) (inc : List Val) (i : Nat) (q : ℚ)
    (hwf : housing.wf) (hfresh : "income_cat" ∉ housing.cols)
    (hbin : binning housing = some hb)
    (hinc : housing.getCol "median_income" = some inc)
    (hi : i < inc.length) (hq : inc.getD i Val.na = Val.num q) (hpos : 0 < q) :
    ∃ labels l, hb.getCol "income_cat" = some labels ∧
      labels.getD i Val.na = Val.num l ∧ specBin q l := by
  obtain ⟨inc2, labels, hg2, hmap, hbeq⟩ := Lemmas.binning_inv hbin
  rw [hinc] at hg2
  cases Option.some.inj hg2
  case _ =>
      obtain ⟨hlen, hget⟩ := Lemmas.mapM_opt_spec cutCell inc labels hmap
      have hcut := hget i Val.na Val.na hi
      rw [hq] at hcut
      have hrows : inc.length = housing.rows.length := Lemmas.getCol_length hinc
      have hlabels : labels.length = housing.rows.length := by rw [hlen, hrows]
      have hcol : hb.getCol "income_cat" = some labels := by
        rw [hbeq]
        exact Lemmas.getCol_addCol_fresh hfresh hwf.2 hlabels
      refine ⟨labels, ?_⟩
      simp only [cutCell] at hcut
      rw [if_neg (not_le.mpr hpos)] at hcut
      have hv := Option.some.inj hcut
      by_cases h1 : q ≤ 1.5
      · exact ⟨1, hcol, by rw [← hv, if_pos h1], Or.inl ⟨rfl, hpos, h1⟩⟩
      · by_cases h2 : q ≤ 3
        · exact ⟨2, hcol, by rw [← hv, if_neg h1, if_pos h2],
            Or.inr (Or.inl ⟨rfl, not_le.mp h1, h2⟩)⟩
        · by_cases h3 : q ≤ 4.5
          · exact ⟨3, hcol, by rw [← hv, if_neg h1, if_neg h2, if_pos h3],
              Or.inr (Or.inr (Or.inl ⟨rfl, not_le.mp h2, h3⟩))⟩
          · by_cases h4 : q ≤ 6
            · exact ⟨4, hcol, by rw [← hv, if_neg h1, if_neg h2, if_neg h3, if_pos h4],
                Or.inr (Or.inr (Or.inr (Or.inl ⟨rfl, not_le.mp h3, h4⟩)))⟩
            · exact ⟨5, hcol,
                by rw [← hv, if_neg h1, if_neg h2, if_neg h3, if_neg h4],
                Or.inr (Or.inr (Or.inr (Or.inr ⟨rfl, not_le.mp h4⟩)))⟩

/-- C2, witness: the amended binning property at a one-row table with
income 2, which lands in the second bin. -/
theorem C2_witness :
    binning incomeTwoDF = some binnedTwoDF ∧
    (∃ labels l, binnedTwoDF.getCol "income_cat" = some labels ∧
      labels.getD 0 Val.na = Val.num l ∧ specBin 2 l) := by
  have hcut : cutCell (Val.num 2) = some (Val.num 2) := by
    unfold cutCell
    norm_num
  have hmap2 : ([Val.num 2] : List Val).mapM cutCell = some [Val.num 2] := by
    rw [List.mapM_cons, hcut]
    rfl
  have hbin : binning incomeTwoDF = some binnedTwoDF := by
    rw [Lemmas.binning_eq incomeTwoDF [Val.num 2] [Val.num 2] (by decide) hmap2]
    decide
  exact ⟨hbin,
    C2_thm incomeTwoDF binnedTwoDF [Val.num 2] 0 2 (by decide) (by decide)
      hbin (by decide) (by decide) (by decide) (by norm_num)⟩

/-- C1: the imputer returned by the train path carries exactly the
per-column medians of the train partition's numeric table (the train
frame with the target and the categorical column dropped, medians over
the observed values of each column), and the test path returns the
imputer it received unchanged: applying it to the test partition never
refits, so its fitted state is identical before and after the test
application. -/
theorem C1_thm :
    (∀ housing X y imp,
      feature_engineering_traindataset housing = some (X, y, imp) →
      ∃ h1 hnum, housing.dropCol "median_house_value" = some h1 ∧
        h1.dropCol "ocean_proximity" = some hnum ∧
        imp.featNames = hnum.cols ∧
        imp.stats.length = hnum.cols.length ∧
        (∀ j, j < hnum.cols.length →
          imp.stats.getD j none = medianQ (observedCol hnum j))) ∧
    (∀ housing_test imp X y imp2,
      feature_engineering_testdataset housing_test imp = some (X, y, imp2) →
      imp2 = imp) := by
  constructor
  · intro housing X y imp h
    obtain ⟨h1, hnum, Xd, htr, htr2, cat, dums, hy0, hh1, hhnum, hfit, hXd,
      hhtr, hhtr2, hcat, hdums, hX0⟩ := Lemmas.fe_train_inv h
    obtain ⟨ha, hb, hc⟩ := Lemmas.fitImputer_spec hfit
    exact ⟨h1, hnum, hh1, hhnum, ha, hb, hc⟩
  · intro housing_test imp X y imp2 h
    exact (Lemmas.fe_test_inv h).1

/-- C1, witness: the imputer property at a concrete train partition
and the no-refit property at a concrete test partition reusing the
train-fitted imputer. -/
theorem C1_witness :
    feature_engineering_traindataset trainDF3 = some (XtrainC1, ytrainC1, impC1) ∧
    feature_engineering_testdataset testDF impC1 = some (XtestC1, ytestC1, impC1) ∧
    (∃ h1 hnum, trainDF3.dropCol "median_house_value" = some h1 ∧
      h1.dropCol "ocean_proximity" = some hnum ∧
      impC1.featNames = hnum.cols ∧
      impC1.stats.length = hnum.cols.length ∧
      (∀ j, j < hnum.cols.length →
        impC1.stats.getD j none = medianQ (observedCol hnum j))) ∧
    impC1 = impC1 :=
  ⟨rfl, rfl, C1_thm.1 trainDF3 XtrainC1 ytrainC1 impC1 rfl,
   C1_thm.2 testDF impC1 XtestC1 ytestC1 impC1 rfl⟩

/-- C7: in the train path, the three derived columns are exactly the
elementwise float quotients of the named imputed columns,
rooms_per_household = total_rooms / households, bedrooms_per_room =
total_bedrooms / total_rooms, population_per_household = population /
households, with no guard for a zero divisor (ratioDiv yields the
float artifacts, an infinity or NaN, there). -/
theorem C7_thm (housing X : DF) (y : List Val) (imp : Imputer)
    (hwf : housing.wf)
    (hf1 : "rooms_per_household" ∉ housing.cols)
    (hf2 : "bedrooms_per_room" ∉ housing.cols)
    (hf3 : "population_per_household" ∉ housing.cols)
    (hsucc : feature_engineering_traindataset housing = some (X, y, imp)) :
    ∃ tr hh tb pop,
      X.getCol "total_rooms" = some tr ∧
      X.getCol "households" = some hh ∧
      X.getCol "total_bedrooms" = some tb ∧
      X.getCol "population" = some pop ∧
      X.getCol "rooms_per_household" = some (List.zipWith ratioDiv tr hh) ∧
      X.getCol "bedrooms_per_room" = some (List.zipWith ratioDiv tb tr) ∧
      X.getCol "population_per_household" = some (List.zipWith ratioDiv pop hh) := by
  obtain ⟨h1, hnum, Xd, htr, htr2, cat, dums, hy0, hh1, hhnum, hfit, hXd,
    hhtr, hhtr2, hcat, hdums, hX0⟩ := Lemmas.fe_train_inv hsucc
  obtain ⟨hc1, hi1, hl1, hwf1, hsub1⟩ := Lemmas.dropCol_inv hh1
  obtain ⟨hc2, hi2, hl2, hwf2, hsub2⟩ := Lemmas.dropCol_inv hhnum
  obtain ⟨htrc, htri, htrr, htrwf, htrl⟩ := Lemmas.mkDF_inv hhtr
  have hwftr : ∀ r ∈ htr.rows, r.length = htr.cols.length := by
    rw [htrc]
    exact htrwf
  have hfr1 : "rooms_per_household" ∉ htr.cols := by
    rw [htrc]
    exact fun hm => hf1 (hsub1 (hsub2 hm))
  have hfr2 : "bedrooms_per_room" ∉ htr.cols := by
    rw [htrc]
    exact fun hm => hf2 (hsub1 (hsub2 hm))
  have hfr3 : "population_per_household" ∉ htr.cols := by
    rw [htrc]
    exact fun hm => hf3 (hsub1 (hsub2 hm))
  obtain ⟨tr, hh, tb, pop, _, _, _, _, _, _, htr2tr, htr2hh, htr2tb, htr2pop,
    hr1, hr2, hr3, hwf3, hlen3⟩ :=
    Lemmas.addRatio_spec hwftr hfr1 hfr2 hfr3 hhtr2
  obtain ⟨vals, _, _, hdi, hdl, _⟩ := Lemmas.getDummies_inv hdums
  have hcatlen : cat.length = h1.rows.length := Lemmas.getCol_length hcat
  have hdlen : dums.rows.length = htr2.rows.length := by
    rw [hdl, hcatlen, hlen3, htrl, hi1, hl1]
    exact hwf.1.symm
  refine ⟨tr, hh, tb, pop, ?_, ?_, ?_, ?_, ?_, ?_, ?_⟩
  · exact Lemmas.getCol_join_left hX0 hwf3 hdlen htr2tr
  · exact Lemmas.getCol_join_left hX0 hwf3 hdlen htr2hh
  · exact Lemmas.getCol_join_left hX0 hwf3 hdlen htr2tb
  · exact Lemmas.getCol_join_left hX0 hwf3 hdlen htr2pop
  · exact Lemmas.getCol_join_left hX0 hwf3 hdlen hr1
  · exact Lemmas.getCol_join_left hX0 hwf3 hdlen hr2
  · exact Lemmas.getCol_join_left hX0 hwf3 hdlen hr3

/-- C7, witness: the ratio-column property at the concrete train
partition trainDF3, together with the claim's example row: total
rooms 10, households 2, total bedrooms 5, population 20 yield exactly
5, 0.5 and 10 under the unguarded division. -/
theorem C7_witness :
    (∃ tr hh tb pop,
      XtrainC1.getCol "total_rooms" = some tr ∧
      XtrainC1.getCol "households" = some hh ∧
      XtrainC1.getCol "total_bedrooms" = some tb ∧
      XtrainC1.getCol "population" = some pop ∧
      XtrainC1.getCol "rooms_per_household" = some (List.zipWith ratioDiv tr hh) ∧
      XtrainC1.getCol "bedrooms_per_room" = some (List.zipWith ratioDiv tb tr) ∧
      XtrainC1.getCol "population_per_household" = some (List.zipWith ratioDiv pop hh)) ∧
    ratioDiv (Val.num 10) (Val.num 2) = Val.num 5 ∧
    ratioDiv (Val.num 5) (Val.num 10) = Val.num 0.5 ∧
    ratioDiv (Val.num 20) (Val.num 2) = Val.num 10 :=
  ⟨C7_thm trainDF3 XtrainC1 ytrainC1 impC1 (by decide) (by decide) (by decide)
      (by decide) rfl,
   by norm_num [ratioDiv], by norm_num [ratioDiv], by norm_num [ratioDiv]⟩

/-- C4, counterexample: the dummy columns are computed per partition
from the categories that partition happens to contain, so a train
partition with categories A and B and a test partition (fed the
train-fitted imputer, as in the pipeline) with category A alone
produce feature tables with different column sets, refuting the
claimed consequence that the two tables always share one column set. -/
theorem C4_counterexample :
    feature_engineering_traindataset trainDF3 = some (XtrainC1, ytrainC1, impC1) ∧
    feature_engineering_testdataset testDF impC1 = some (XtestC1, ytestC1, impC1) ∧
    XtrainC1.cols ≠ XtestC1.cols :=
  ⟨rfl, rfl, by decide⟩

/-- C4, amended: for each partition separately, the produced feature
table's columns are exactly the numeric columns (the partition's
columns minus the target and the categorical attribute, in order), the
3 derived ratio columns, and one indicator column per category of THAT
partition except the baseline, numbering that partition's categorical
cardinality minus one; consequently the train and the test feature
tables have the same column set provided the two partitions have the
same columns and exhibit the same categorical value set. -/
theorem C4_thm :
    (∀ housing X y imp,
      "rooms_per_household" ∉ housing.cols →
      "bedrooms_per_room" ∉ housing.cols →
      "population_per_household" ∉ housing.cols →
      feature_engineering_traindataset housing = some (X, y, imp) →
      ∃ cats, partitionCats housing = some cats ∧
        X.cols = ((housing.cols.filter (fun s => ¬ s == "median_house_value")).filter
            (fun s => ¬ s == "ocean_proximity")) ++
          ["rooms_per_household", "bedrooms_per_room", "population_per_household"] ++
          (cats.drop 1).map (fun c => "ocean_proximity" ++ "_" ++ c) ∧
        ((cats.drop 1).map (fun c => "ocean_proximity" ++ "_" ++ c)).length =
          cats.length - 1) ∧
    (∀ housing_test imp X y imp2,
      "rooms_per_household" ∉ housing_test.cols →
      "bedrooms_per_room" ∉ housing_test.cols →
      "population_per_household" ∉ housing_test.cols →
      feature_engineering_testdataset housing_test imp = some (X, y, imp2) →
      ∃ cats, partitionCats housing_test = some cats ∧
        X.cols = ((housing_test.cols.filter
            (fun s => ¬ s == "median_house_value")).filter
            (fun s => ¬ s == "ocean_proximity")) ++
          ["rooms_per_household", "bedrooms_per_room", "population_per_household"] ++
          (cats.drop 1).map (fun c => "ocean_proximity" ++ "_" ++ c) ∧
        ((cats.drop 1).map (fun c => "ocean_proximity" ++ "_" ++ c)).length =
          cats.length - 1) ∧
    (∀ htrain htest imp Xtr ytr imptr Xte yte impte,
      "rooms_per_household" ∉ htrain.cols →
      "bedrooms_per_room" ∉ htrain.cols →
      "population_per_household" ∉ htrain.cols →
      htrain.cols = htest.cols →
      partitionCats htrain = partitionCats htest →
      feature_engineering_traindataset htrain = some (Xtr, ytr, imptr) →
      feature_engineering_testdataset htest imp = some (Xte, yte, impte) →
      Xtr.cols = Xte.cols) := by
  refine ⟨?_, ?_, ?_⟩
  · intro housing X y imp hf1 hf2 hf3 h
    obtain ⟨cats, hp, hX⟩ := Lemmas.fe_train_cols hf1 hf2 hf3 h
    exact ⟨cats, hp, hX, by simp⟩
  · intro housing_test imp X y imp2 hf1 hf2 hf3 h
    obtain ⟨cats, hp, hX⟩ := Lemmas.fe_test_cols hf1 hf2 hf3 h
    exact ⟨cats, hp, hX, by simp⟩
  · intro htrain htest imp Xtr ytr imptr Xte yte impte hf1 hf2 hf3 hcolseq hpcats
      htr hte
    obtain ⟨catsT, hpT, hXtr⟩ := Lemmas.fe_train_cols hf1 hf2 hf3 htr
    obtain ⟨catsE, hpE, hXte⟩ := Lemmas.fe_test_cols (hcolseq ▸ hf1) (hcolseq ▸ hf2)
      (hcolseq ▸ hf3) hte
    rw [hpT, hpE] at hpcats
    have hce : catsT = catsE := Option.some.inj hpcats
    rw [hXtr, hXte, hcolseq, hce]

/-- C4, witness: the per-partition column characterization at trainDF3
and the equal-column-set conclusion for the pair trainDF3 and
testSameCats, which exhibit the same category set. -/
theorem C4_witness :
    feature_engineering_testdataset testSameCats impC1 =
      some (XtestC4, [Val.num 150, Val.num 250], impC1) ∧
    (∃ cats, partitionCats trainDF3 = some cats ∧
      XtrainC1.cols = ((trainDF3.cols.filter
          (fun s => ¬ s == "median_house_value")).filter
          (fun s => ¬ s == "ocean_proximity")) ++
        ["rooms_per_household", "bedrooms_per_room", "population_per_household"] ++
        (cats.drop 1).map (fun c => "ocean_proximity" ++ "_" ++ c) ∧
      ((cats.drop 1).map (fun c => "ocean_proximity" ++ "_" ++ c)).length =
        cats.length - 1) ∧
    XtrainC1.cols = XtestC4.cols :=
  ⟨rfl,
   C4_thm.1 trainDF3 XtrainC1 ytrainC1 impC1 (by decide) (by decide) (by decide) rfl,
   C4_thm.2.2 trainDF3 testSameCats impC1 XtrainC1 ytrainC1 impC1 XtestC4
     [Val.num 150, Val.num 250] impC1 (by decide) (by decide) (by decide)
     (by decide) (by decide) rfl rfl⟩

/-- C5, counterexample: the code splits the input filename at its
first dot, so for the base name a.b with extension csv the outputs are
a_train.csv and so on, not a.b_train.csv as stripping the extension
would give. -/
theorem C5_counterexample :
    outputFilenames "a.b.csv" =
      ["a_train.csv", "a_label.csv", "a_testdata.csv", "a_testlabel.csv"] ∧
    outputFilenames "a.b.csv" ≠
      ["a.b_train.csv", "a.b_label.csv", "a.b_testdata.csv", "a.b_testlabel.csv"] ∧
    specOutputFilenames "a.b.csv" =
      ["a.b_train.csv", "a.b_label.csv", "a.b_testdata.csv", "a.b_testlabel.csv"] := by
  refine ⟨by decide, by decide, by decide⟩

/-- C5, amended: the four output files are named by taking the part of
the input filename before the FIRST dot and appending the fixed
suffixes; this agrees with stripping the extension exactly when the
base name itself contains no dot, as for any input of the shape B.E
with B dot-free. -/
theorem C5_thm (B E : String) (h : '.' ∉ B.data) :
    outputFilenames (B ++ "." ++ E) =
      [B ++ "_train.csv", B ++ "_label.csv", B ++ "_testdata.csv", B ++ "_testlabel.csv"] := by
  have hdot : (".").data = ['.'] := rfl
  have hdata : (B ++ "." ++ E).data = B.data ++ '.' :: E.data := by
    rw [String.data_append, String.data_append, hdot, List.append_assoc,
      List.singleton_append]
  unfold outputFilenames fileBase
  rw [hdata, Lemmas.splitDot_prefix _ _ h]
  simp only [List.headD_cons, Lemmas.strMkData]

/-- C5, witness: the amended naming rule evaluated at housing.csv. -/
theorem C5_witness :
    outputFilenames ("housing" ++ "." ++ "csv") =
      ["housing_train.csv", "housing_label.csv", "housing_testdata.csv",
       "housing_testlabel.csv"] :=
  C5_thm "housing" "csv" (by decide)

/-- C6, counterexample: save_processdata restores the working
directory captured at module import, not the one observed immediately
before the call; with pre-call directory /a and import-time directory
/b the post-call directory is /b. -/
theorem C6_counterexample :
    (save_processdata [] "/b" emptyDF [] emptyDF [] "housing.csv" "/out"
        { cwd := "/a", files := [] }).1 = true ∧
    (save_processdata [] "/b" emptyDF [] emptyDF [] "housing.csv" "/out"
        { cwd := "/a", files := [] }).2.1.cwd = "/b" ∧
    (save_processdata [] "/b" emptyDF [] emptyDF [] "housing.csv" "/out"
        { cwd := "/a", files := [] }).2.1.cwd ≠ "/a" := by
  refine ⟨by decide, by decide, by decide⟩

/-- C6, amended: a completed save_processdata call leaves the working
directory equal to the directory captured at module import (cw_dir);
in particular the pre-call working directory is restored exactly when
it equals that import-time directory. -/
theorem C6_thm (outcomes : List Bool) (cwDir : String) (X_train : DF)
    (y_train : List Val) (X_test : DF) (y_test : List Val)
    (f out : String) (sys : Sys)
    (h : (save_processdata outcomes cwDir X_train y_train X_test y_test f out sys).1 = true) :
    (save_processdata outcomes cwDir X_train y_train X_test y_test f out sys).2.1.cwd = cwDir ∧
    (sys.cwd = cwDir →
      (save_processdata outcomes cwDir X_train y_train X_test y_test f out sys).2.1.cwd = sys.cwd) := by
  unfold save_processdata at h ⊢
  rcases hw : writeSeq outcomes (outputPairs f out X_train y_train X_test y_test) sys with ⟨b, s, tr⟩
  rw [hw] at h
  cases b
  · simp at h
  · exact ⟨rfl, fun hc => by rw [hc]⟩

/-- C6, witness: the amended restore property at a concrete completed
call whose pre-call directory is the import-time one. -/
theorem C6_witness :
    (save_processdata [] "/home" emptyDF [] emptyDF [] "housing.csv" "/out"
        { cwd := "/home", files := [] }).2.1.cwd = "/home" ∧
    (({ cwd := "/home", files := [] } : Sys).cwd = "/home" →
      (save_processdata [] "/home" emptyDF [] emptyDF [] "housing.csv" "/out"
          { cwd := "/home", files := [] }).2.1.cwd =
        ({ cwd := "/home", files := [] } : Sys).cwd) :=
  C6_thm [] "/home" emptyDF [] emptyDF [] "housing.csv" "/out"
    { cwd := "/home", files := [] } (by decide)

/-- C9: when the write of the (k+1)-st output file fails after k files
were already written, the writer returns with the failure flag (the
run aborts), the state holds exactly the previously written files with
their written contents appended to the prior disk state (no cleanup or
rollback, no other file touched), the working directory is unchanged,
and the attempt trace is exactly the first k+1 output paths, each
attempted once (the paths are distinct, so nothing was retried). -/
theorem C9_thm (k : Nat) (rest : List Bool) (cwDir : String) (X_train : DF)
    (y_train : List Val) (X_test : DF) (y_test : List Val) (f out : String)
    (sys : Sys) (hk : k < 4)
    (hfresh : ∀ pr ∈ sys.files,
      pr.1 ∉ (outputPairs f out X_train y_train X_test y_test).map Prod.fst) :
    save_processdata (List.replicate k true ++ false :: rest) cwDir
        X_train y_train X_test y_test f out sys =
      (false,
       { sys with files :=
          sys.files ++ (outputPairs f out X_train y_train X_test y_test).take k },
       ((outputPairs f out X_train y_train X_test y_test).map Prod.fst).take (k + 1)) ∧
    ((outputPairs f out X_train y_train X_test y_test).map Prod.fst).Nodup := by
  have hmapfst : (outputPairs f out X_train y_train X_test y_test).map Prod.fst =
      (outputFilenames f).map (pathJoin out) := by
    apply List.map_fst_zip
    simp [outputFilenames]
  have hnd : ((outputPairs f out X_train y_train X_test y_test).map Prod.fst).Nodup := by
    rw [hmapfst]
    exact Lemmas.pathsNodup f out
  have hlen : k < (outputPairs f out X_train y_train X_test y_test).length := by
    have : (outputPairs f out X_train y_train X_test y_test).length = 4 := by
      simp [outputPairs, outputFilenames]
    omega
  have hw := Lemmas.writeSeq_fail k (outputPairs f out X_train y_train X_test y_test)
    rest sys hlen hnd hfresh
  refine ⟨?_, hnd⟩
  unfold save_processdata
  rw [hw]

/-- C9, witness: a concrete run in which the third write (the test
features file) fails after the two train files were written. -/
theorem C9_witness :
    save_processdata (List.replicate 2 true ++ false :: []) "/home"
        trainDF [Val.num 100] testDF [Val.num 150] "housing.csv" "/out"
        { cwd := "/home", files := [] } =
      (false,
       { cwd := "/home", files :=
          ([] : List (String × Csv)) ++
            (outputPairs "housing.csv" "/out" trainDF [Val.num 100]
              testDF [Val.num 150]).take 2 },
       ((outputPairs "housing.csv" "/out" trainDF [Val.num 100]
          testDF [Val.num 150]).map Prod.fst).take 3) ∧
    ((outputPairs "housing.csv" "/out" trainDF [Val.num 100]
        testDF [Val.num 150]).map Prod.fst).Nodup :=
  C9_thm 2 [] "/home" trainDF [Val.num 100] testDF [Val.num 150] "housing.csv" "/out"
    { cwd := "/home", files := [] } (by decide) (by simp)

/-- C8: the pipeline output is independent of the ambient process
entropy, because both library splits are called with the fixed seed
42: two runs on the same parsed input, filenames and initial process
state return the same partitions, the same written files and the same
process state, whatever entropy the two runs see. -/
theorem C8_thm (env1 env2 : SplitRNG) (cols : List String) (data : List (List Val))
    (f out cwDir : String) (outcomes : List Bool) (sys : Sys) :
    init_preprocess env1 cols data f out cwDir outcomes sys =
      init_preprocess env2 cols data f out cwDir outcomes sys := rfl

/-- C3: on a table carrying the loader's default range index, with any
generator satisfying the library splitter's contract, a successful
startified_split returns two partitions of the full table: the columns
are unchanged, the two row counts sum to the table's row count, the two
index-label lists are disjoint, their concatenation is a permutation of
the table's index, and the labelled rows of the two partitions together
are a permutation of the table's labelled rows — the partitions are
disjoint row subsets whose union by row identity is the full table. -/
theorem C3_thm (rng : SplitRNG) (housing t1 t2 : DF)
    (hok : RngOK rng)
    (hidx : housing.index = (List.range housing.nRows).map Int.ofNat)
    (h : startified_split rng housing = some (t1, t2)) :
    t1.cols = housing.cols ∧ t2.cols = housing.cols ∧
    t1.nRows + t2.nRows = housing.nRows ∧
    t1.index.Disjoint t2.index ∧
    (t1.index ++ t2.index).Perm housing.index ∧
    (t1.index.zip t1.rows ++ t2.index.zip t2.rows).Perm
      (housing.index.zip housing.rows) := by
  obtain ⟨y, trainIdx, testIdx, hy, hx, hl1, hl2⟩ := Lemmas.startified_split_inv h
  have hylen : y.length = housing.nRows := Lemmas.getCol_length hy
  have hperm : (trainIdx ++ testIdx).Perm (List.range housing.nRows) := by
    rw [← hylen]
    exact Lemmas.iterIndices_perm hok hx
  have hvlt : ∀ v ∈ trainIdx ++ testIdx, v < housing.nRows := by
    intro v hv
    have hm := hperm.mem_iff.mp hv
    rw [List.mem_range] at hm
    exact hm
  have he1 := Lemmas.loc_default hidx trainIdx
    (fun v hv => hvlt v (List.mem_append_left _ hv))
  have he2 := Lemmas.loc_default hidx testIdx
    (fun v hv => hvlt v (List.mem_append_right _ hv))
  rw [he1, Option.some.injEq] at hl1
  rw [he2, Option.some.injEq] at hl2
  subst hl1
  subst hl2
  have hpermIdx : (trainIdx.map Int.ofNat ++ testIdx.map Int.ofNat).Perm
      housing.index := by
    rw [← List.map_append, hidx]
    exact hperm.map Int.ofNat
  refine ⟨rfl, rfl, ?_, ?_, ?_, ?_⟩
  · have hlen := hperm.length_eq
    rw [List.length_append, List.length_range] at hlen
    simp only [DF.nRows, List.length_map]
    exact hlen
  · have hnd : housing.index.Nodup := by
      rw [hidx]
      exact (List.nodup_range _).map (fun a b hab => Int.ofNat.inj hab)
    have hall : (trainIdx.map Int.ofNat ++ testIdx.map Int.ofNat).Nodup :=
      hpermIdx.nodup_iff.mpr hnd
    exact (List.nodup_append.mp hall).2.2
  · exact hpermIdx
  · show ((trainIdx.map Int.ofNat).zip
        (trainIdx.map (fun v => housing.rows.getD v [])) ++
      (testIdx.map Int.ofNat).zip
        (testIdx.map (fun v => housing.rows.getD v []))).Perm
      (housing.index.zip housing.rows)
    have hrhs : housing.index.zip housing.rows =
        (List.range housing.nRows).map
          (fun a => (Int.ofNat a, housing.rows.getD a [])) := by
      rw [hidx]
      conv_lhs => rw [show housing.rows =
        (List.range housing.nRows).map (fun v => housing.rows.getD v []) from
        (Lemmas.mapGetDRange [] housing.rows).symm]
      rw [List.zip_map']
    rw [List.zip_map', List.zip_map', ← List.map_append, hrhs]
    exact hperm.map _

/-- C3, witness: the seeded generator satisfies the splitter contract,
the 10-row binned frame carries the default range index, its stratified
split succeeds with the two concrete partitions, and those partitions
keep the columns, have row counts 8 + 2 = 10, disjoint index labels,
and labelled rows forming a permutation of the frame's labelled rows. -/
theorem C3_witness :
    RngOK (seededRng 42) ∧
    housing10binned.index = (List.range housing10binned.nRows).map Int.ofNat ∧
    startified_split (seededRng 42) housing10binned =
      some (strat10train, strat10test) ∧
    (strat10train.cols = housing10binned.cols ∧
     strat10test.cols = housing10binned.cols ∧
     strat10train.nRows + strat10test.nRows = housing10binned.nRows ∧
     strat10train.index.Disjoint strat10test.index ∧
     (strat10train.index ++ strat10test.index).Perm housing10binned.index ∧
     (strat10train.index.zip strat10train.rows ++
       strat10test.index.zip strat10test.rows).Perm
       (housing10binned.index.zip housing10binned.rows)) := by
  have hsplit : startified_split (seededRng 42) housing10binned =
      some (strat10train, strat10test) := by decide
  exact ⟨Lemmas.rngOK_seeded 42, by decide, hsplit,
    C3_thm (seededRng 42) housing10binned strat10train strat10test
      (Lemmas.rngOK_seeded 42) (by decide) hsplit⟩

/-- C10: startified_split selects its partitions by label-based .loc
indexing with the positional indices the splitter produced, so it needs
the default range index 0..n-1: on a table that misses some label v
below its row count, the selection raises (returns none) rather than
producing any partition, for every generator meeting the splitter
contract. -/
theorem C10_thm (rng : SplitRNG) (housing : DF) (v : Nat)
    (hok : RngOK rng) (hv : v < housing.nRows)
    (hmem : Int.ofNat v ∉ housing.index) :
    startified_split rng housing = none := by
  cases hs : startified_split rng housing with
  | none => rfl
  | some p =>
    exfalso
    obtain ⟨t1, t2⟩ := p
    obtain ⟨y, trainIdx, testIdx, hy, hx, hl1, hl2⟩ := Lemmas.startified_split_inv hs
    have hylen : y.length = housing.nRows := Lemmas.getCol_length hy
    have hperm := Lemmas.iterIndices_perm hok hx
    have hv2 : v ∈ trainIdx ++ testIdx := by
      rw [hperm.mem_iff, List.mem_range, hylen]
      exact hv
    have hloc : ∀ {idxs : List Nat} {t : DF}, v ∈ idxs →
        housing.loc (idxs.map Int.ofNat) = some t → False := by
      intro idxs t hvi hl
      unfold DF.loc at hl
      split at hl
      · rename_i hcond
        rw [List.all_eq_true] at hcond
        have hin := hcond (Int.ofNat v) (List.mem_map_of_mem Int.ofNat hvi)
        rw [decide_eq_true_eq] at hin
        exact hmem hin
      · cases hl
    rcases List.mem_append.mp hv2 with hside | hside
    · exact hloc hside hl1
    · exact hloc hside hl2

/-- C10, witness: the 10-row frame whose index is shifted to 1..10 has
10 rows but no label 0, and its stratified split under the seeded
generator returns none instead of a partition pair. -/
theorem C10_witness :
    RngOK (seededRng 42) ∧ 0 < housing10shifted.nRows ∧
    Int.ofNat 0 ∉ housing10shifted.index ∧
    startified_split (seededRng 42) housing10shifted = none :=
  ⟨Lemmas.rngOK_seeded 42, by decide, by decide,
   C10_thm (seededRng 42) housing10shifted 0 (Lemmas.rngOK_seeded 42)
     (by decide) (by decide)⟩

end MLHousing
